import Mathlib

/-
Verification of the WordPress hooks analyzer (spotlight.py).

The program is line-oriented text matching: a fixed table of regular
expressions of the two shapes  name\(['"][\w-]+['"]  (an identifier-bearing
call) and  name\(  (a bare call) is applied to every stripped line of every
`*.php` file under a root directory; each match yields an immutable record,
and the records are rendered as a markdown or CSV report.

Strings are embedded as `List Char`.  The scanned corpora are ASCII, so the
regex class \w is modelled as [A-Za-z0-9_].  The regexes in the source
contain no other metacharacters: each is a literal call-name prefix, a
quote class, a greedy nonempty run of word-or-hyphen characters, and a
quote class.  Since quote characters are not word-or-hyphen characters the
greedy run admits no backtracking, so matching is the deterministic
function `matchHere` below, and `re.finditer`'s leftmost non-overlapping
scan is the fuelled loop `finditerAux` (the fuel `l.length` is enough
because every step advances the position by at least one).
-/

namespace Spotlight

/-- The single-quote character (kept out of literals). -/
def squote : Char := Char.ofNat 39

/-- The double-quote character. -/
def dquote : Char := Char.ofNat 34

/-- The backtick marker character used for highlighting. -/
def btick : Char := Char.ofNat 96

/-- The regex class `['"]`. -/
def isQuote (c : Char) : Bool := c = squote || c = dquote

/-- The regex class `\w` (ASCII model). -/
def isWordChar (c : Char) : Bool := c.isAlpha || c.isDigit || c = '_'

/-- The regex class `[\w-]`. -/
def isIdentChar (c : Char) : Bool := isWordChar c || c = '-'

/-- Python `str.strip` whitespace (space, tab, newline, return, vtab, formfeed). -/
def pySpace (c : Char) : Bool :=
  c = ' ' || c = '\t' || c = '\n' || c = '\r' || c = Char.ofNat 11 || c = Char.ofNat 12

/-- Python `str.strip()`: drop whitespace from both ends. -/
def pyStrip (l : List Char) : List Char :=
  ((l.dropWhile pySpace).reverse.dropWhile pySpace).reverse

/-- One regex of the pattern table: the call name, and whether the regex has
the quoted-identifier tail `['"][\w-]+['"]`. -/
structure Pattern where
  name : List Char
  quoted : Bool
deriving DecidableEq

/-- The literal prefix the regex matches: the call name and the opening paren. -/
def Pattern.pfx (p : Pattern) : List Char := p.name ++ [ '(' ]

/-- The characters of the raw regex tail `['"][\w-]+['"]` (source text of the
pattern, used only by the terminal summary's substring check). -/
def quotedTailRaw : List Char :=
  ['[', squote, dquote, ']', '[', '\\', 'w', '-', ']', '+', '[', squote, dquote, ']']

/-- The raw source text of the regex, e.g. `add_action\(['"][\w-]+['"]`. -/
def Pattern.raw (p : Pattern) : List Char :=
  p.name ++ ['\\', '('] ++ (if p.quoted then quotedTailRaw else [])

/-- Build an identifier-bearing pattern from its call name. -/
def mkQ (s : String) : Pattern := { name := s.data, quoted := true }

/-- Build a bare pattern (no quoted identifier) from its call name. -/
def mkB (s : String) : Pattern := { name := s.data, quoted := false }

/-- The `self.patterns` table, in declaration order. -/
def patterns : List (List Char × List Pattern) :=
  [ (("action").data,
      [mkQ ("add_action"), mkQ ("do_action"), mkQ ("has_action"), mkQ ("remove_action"),
       mkQ ("remove_all_actions"), mkQ ("did_action"), mkQ ("do_action_ref_array")]),
    (("filter").data,
      [mkQ ("add_filter"), mkQ ("apply_filters"), mkQ ("has_filter"), mkQ ("remove_filter"),
       mkQ ("remove_all_filters"), mkB ("current_filter"), mkQ ("apply_filters_ref_array")]),
    (("shortcode").data,
      [mkQ ("add_shortcode"), mkQ ("do_shortcode"), mkQ ("has_shortcode"),
       mkQ ("remove_shortcode"), mkB ("remove_all_shortcodes"), mkB ("shortcode_atts")]),
    (("hook").data,
      [mkQ ("wp_hook")]) ]

/-- Every pattern of the table, across categories. -/
def patternsAll : List Pattern := patterns.flatMap (fun cp => cp.2)

/-- The `self.function_types` labels table. -/
def function_types : List (List Char × List Char) :=
  [ (("add_action").data, ("Action Registration").data),
    (("do_action").data, ("Action Execution").data),
    (("has_action").data, ("Action Check").data),
    (("remove_action").data, ("Action Removal").data),
    (("remove_all_actions").data, ("All Actions Removal").data),
    (("did_action").data, ("Action Execution Check").data),
    (("do_action_ref_array").data, ("Action Execution (Reference)").data),
    (("add_filter").data, ("Filter Registration").data),
    (("apply_filters").data, ("Filter Application").data),
    (("has_filter").data, ("Filter Check").data),
    (("remove_filter").data, ("Filter Removal").data),
    (("remove_all_filters").data, ("All Filters Removal").data),
    (("current_filter").data, ("Current Filter Check").data),
    (("apply_filters_ref_array").data, ("Filter Application (Reference)").data),
    (("add_shortcode").data, ("Shortcode Registration").data),
    (("do_shortcode").data, ("Shortcode Execution").data),
    (("has_shortcode").data, ("Shortcode Check").data),
    (("remove_shortcode").data, ("Shortcode Removal").data),
    (("remove_all_shortcodes").data, ("All Shortcodes Removal").data),
    (("shortcode_atts").data, ("Shortcode Attributes").data),
    (("wp_hook").data, ("Hook Creation").data) ]

/-- Dictionary lookup with a default (Python `dict.get(k, d)`). -/
def lookupD (m : List (List Char × List Char)) (k d : List Char) : List Char :=
  match m with
  | [] => d
  | kv :: rest => if kv.1 = k then kv.2 else lookupD rest k d

/-- Match a pattern's regex at the head of `s`, returning the length of the
(unique, leftmost-greedy) match.  For an identifier-bearing pattern this is
the literal prefix, an opening quote, a maximal nonempty run of
word-or-hyphen characters, and a closing quote. -/
def matchHere (p : Pattern) (s : List Char) : Option Nat :=
  if p.pfx.isPrefixOf s then
    if p.quoted then
      match s.drop p.pfx.length with
      | [] => none
      | q1 :: rest =>
        if isQuote q1 then
          if (rest.takeWhile isIdentChar).isEmpty then none
          else
            match rest.drop (rest.takeWhile isIdentChar).length with
            | [] => none
            | q2 :: _ =>
              if isQuote q2 then
                some (p.pfx.length + 1 + (rest.takeWhile isIdentChar).length + 1)
              else none
        else none
    else some p.pfx.length
  else none

/-- The scan loop of `re.finditer`: try each position left to right, and skip
past a whole match when one is found (non-overlapping).  Fuel decreases once
per position; matches are nonempty so `l.length` fuel suffices. -/
def finditerAux (p : Pattern) (l : List Char) : Nat → Nat → List (Nat × Nat)
  | 0, _ => []
  | fuel + 1, i =>
    if i < l.length then
      match matchHere p (l.drop i) with
      | some len => (i, len) :: finditerAux p l fuel (i + max 1 len)
      | none => finditerAux p l fuel (i + 1)
    else []

/-- `re.finditer(pattern, line)`: all matches as (position, length) pairs. -/
def finditer (p : Pattern) (l : List Char) : List (Nat × Nat) :=
  finditerAux p l l.length 0

/-- Match the regex `['"][\w-]+['"]` at the head of a list, returning the
matched token (quote, identifier run, quote). -/
def quotedTokHere (s : List Char) : Option (List Char) :=
  match s with
  | [] => none
  | q1 :: rest =>
    if isQuote q1 then
      if (rest.takeWhile isIdentChar).isEmpty then none
      else
        match rest.drop (rest.takeWhile isIdentChar).length with
        | [] => none
        | q2 :: _ =>
          if isQuote q2 then some ((q1 :: rest.takeWhile isIdentChar) ++ [q2]) else none
    else none

/-- `re.search(r'['"][\w-]+['"]', text)`: leftmost occurrence of the quoted
token inside `text`. -/
def searchQuoted (s : List Char) : Option (List Char) :=
  match s with
  | [] => none
  | c :: rest =>
    match quotedTokHere (c :: rest) with
    | some t => some t
    | none => searchQuoted rest

/-- Python `str.strip('\x27"')`: drop quote characters from both ends. -/
def stripQuotes (t : List Char) : List Char :=
  ((t.dropWhile isQuote).reverse.dropWhile isQuote).reverse

/-- Lines 83-86: the extracted identifier, or the sentinel `N/A` when the
matched text holds no quoted token. -/
def extractHookName (text : List Char) : List Char :=
  match searchQuoted text with
  | some tok => stripQuotes tok
  | none => ("N/A").data

/-- Python `str.replace(old, new)` (all non-overlapping occurrences, left to
right).  `old` is never empty at the call site (a regex match is nonempty);
the fuel `s.length` suffices since each step consumes at least one char. -/
def replaceAllAux (old new : List Char) : Nat → List Char → List Char
  | _, [] => []
  | 0, s => s
  | fuel + 1, c :: rest =>
    if old.isPrefixOf (c :: rest) then new ++ replaceAllAux old new fuel ((c :: rest).drop old.length)
    else c :: replaceAllAux old new fuel rest

/-- Line 88: `line.replace(match.group(), ...)`. -/
def replaceAll (s old new : List Char) : List Char := replaceAllAux old new s.length s

/-- One match record (the dict appended at lines 90-99). -/
structure MatchRecord where
  category : List Char
  function : List Char
  function_type : List Char
  hook_name : List Char
  line_number : Nat
  file_path : List Char
  original_line : List Char
  highlighted_line : List Char
deriving DecidableEq

/-- Line 69: `match_text.split('(')[0]`. -/
def get_function_name (text : List Char) : List Char :=
  text.takeWhile (fun c => c ≠ '(')

/-- The record built for one finditer match (the body of the inner loop,
lines 81-99). -/
def mkRecordFor (path : List Char) (lineNum : Nat) (line : List Char)
    (cat : List Char) (m : Nat × Nat) : MatchRecord :=
  let text := (line.drop m.1).take m.2
  { category := cat
    function := get_function_name text
    function_type := lookupD function_types (get_function_name text) (("Unknown").data)
    hook_name := extractHookName text
    line_number := lineNum
    file_path := path
    original_line := line
    highlighted_line := replaceAll line text ((btick :: text) ++ [btick]) }

/-- Lines 78-99: all records of one (already stripped) line, category by
category, pattern by pattern, match by match. -/
def lineMatches (path : List Char) (lineNum : Nat) (line : List Char) : List MatchRecord :=
  patterns.flatMap fun cp =>
    cp.2.flatMap fun p =>
      (finditer p line).map (mkRecordFor path lineNum line cp.1)

/-- A source file as the scanner sees it: its path, and either its decoded
lines or the error raised by open / decode / read. -/
structure SrcFile where
  path : List Char
  content : Except (List Char) (List (List Char))

/-- Line 101: `print(f"Error processing {file_path}: {str(e)}")`. -/
def errMsg (path e : List Char) : List Char :=
  ("Error processing ").data ++ path ++ (": ").data ++ e

/-- Lines 71-102 `find_matches`: the records of one file plus the diagnostic
messages printed.  A failing file is caught and contributes an error line
and no records (`results` is empty when `readlines` raises). -/
def find_matches (f : SrcFile) : List MatchRecord × List (List Char) :=
  match f.content with
  | .error e => ([], [errMsg f.path e])
  | .ok lines => (lines.enum.flatMap fun il => lineMatches f.path (il.1 + 1) (pyStrip il.2), [])

/-- The filesystem as `scan_directory` observes it: whether the root can be
enumerated, and the `*.php` files `Path.rglob` yields, in traversal order.
CPython's pathlib suppresses the OSError raised while scanning a missing or
unreadable directory, so `rglob` on such a root yields no entries and raises
nothing; `rootExists = false` models that case. -/
structure FileSystem where
  rootExists : Bool
  phpFiles : List SrcFile

/-- Lines 104-110 `scan_directory`, paired with the diagnostics printed. -/
def scan_directory (fs : FileSystem) : List MatchRecord × List (List Char) :=
  if fs.rootExists then
    (fs.phpFiles.flatMap fun f => (find_matches f).1,
     fs.phpFiles.flatMap fun f => (find_matches f).2)
  else ([], [])

/-- Lines 171-172: `[r for r in results if r['category'] == args.category]`. -/
def filterByCategory (rs : List MatchRecord) (c : List Char) : List MatchRecord :=
  rs.filter (fun r => r.category == c)

/-- Decimal rendering of a line number (Python `str(int)`). -/
def natStr (n : Nat) : List Char := Nat.toDigits 10 n

/-- Strict lexicographic code-point comparison of Python strings (`<`). -/
def lexLt : List Char → List Char → Bool
  | [], [] => false
  | [], _ :: _ => true
  | _ :: _, [] => false
  | a :: as, b :: bs => a < b || (a = b && lexLt as bs)

/-- Python `sorted` comparison on (key, value) pairs keyed by strings (the
values are never compared since all keys are distinct). -/
def keyLe (a b : List Char × List MatchRecord) : Bool := !(lexLt b.1 a.1)

/-- Insert `x` before the first element `y` with `le x y` (stable insertion:
`le x y` holds for equal keys, so an earlier element stays first). -/
def insertLe {α : Type} (le : α → α → Bool) (x : α) : List α → List α
  | [] => [x]
  | y :: ys => if le x y then x :: y :: ys else y :: insertLe le x ys

/-- Stable insertion sort: the model of Python `sorted`. -/
def sortLe {α : Type} (le : α → α → Bool) : List α → List α
  | [] => []
  | x :: xs => insertLe le x (sortLe le xs)

/-- The `defaultdict(list)` append of lines 126-128: add `r` to the group of
its function name, creating the group at the end on first sight. -/
def addToGroup (g : List (List Char × List MatchRecord)) (r : MatchRecord) :
    List (List Char × List MatchRecord) :=
  match g with
  | [] => [(r.function, [r])]
  | kv :: rest =>
    if kv.1 = r.function then (kv.1, kv.2 ++ [r]) :: rest else kv :: addToGroup rest r

/-- The `by_function` dictionary: groups in first-seen key order, each group
in encounter order. -/
def groupByFunction (rs : List MatchRecord) : List (List Char × List MatchRecord) :=
  rs.foldl addToGroup []

/-- Line 130: `sorted(by_function.items())`. -/
def sortGroups (g : List (List Char × List MatchRecord)) : List (List Char × List MatchRecord) :=
  sortLe keyLe g

/-- The fixed category order of line 120. -/
def categoryOrder : List (List Char) :=
  [("action").data, ("filter").data, ("shortcode").data, ("hook").data]

/-- Python `str.title()` restricted to the single lowercase words it is
applied to here: uppercase the first character, lowercase the rest. -/
def pyTitle : List Char → List Char
  | [] => []
  | c :: rest => c.toUpper :: rest.map Char.toLower

/-- Lines 133-136: the markdown entry of one record. -/
def recordEntry (r : MatchRecord) : List Char :=
  ("- **File:** ").data ++ r.file_path ++ (":").data ++ natStr r.line_number ++ ("\n").data
  ++ (if r.hook_name ≠ ("N/A").data
      then ("  - **Hook:** ").data ++ r.hook_name ++ ("\n").data else [])
  ++ ("  - **Line:** ").data ++ r.highlighted_line ++ ("\n\n").data

/-- Lines 131-136: one function-kind subsection. -/
def subsectionText (kv : List Char × List MatchRecord) : List Char :=
  ("#### ").data ++ lookupD function_types kv.1 kv.1 ++ ("\n\n").data
  ++ kv.2.flatMap recordEntry

/-- The category-sections loop of lines 120-136 (a category section is
emitted only when it has records). -/
def mdBody (results : List MatchRecord) : List Char :=
  categoryOrder.flatMap fun cat =>
    if (results.filter (fun r => r.category == cat)).isEmpty then [] else
      ("\n### ").data ++ pyTitle cat ++ ("s\n\n").data
      ++ (sortGroups (groupByFunction (results.filter (fun r => r.category == cat)))).flatMap
        subsectionText

/-- Lines 112-136 `export_markdown`: the full text written to the output
file. -/
def export_markdown (results : List MatchRecord) (project_name : List Char) : List Char :=
  ("# ").data ++ project_name ++ ("\n\n").data
  ++ ("## WordPress Hooks Analysis\n\n").data
  ++ mdBody results

/-- The eight CSV column names, in the order of lines 144-147. -/
def csvHeader : List (List Char) :=
  [("category").data, ("function").data, ("function_type").data, ("hook_name").data,
   ("file_path").data, ("line_number").data, ("original_line").data, ("highlighted_line").data]

/-- The field values of a record, in CSV column order (`str()` applied to the
line number by the csv writer). -/
def csvFields (r : MatchRecord) : List (List Char) :=
  [r.category, r.function, r.function_type, r.hook_name,
   r.file_path, natStr r.line_number, r.original_line, r.highlighted_line]

/-- csv QUOTE_MINIMAL: a field is quoted iff it contains the delimiter, the
quote character, or a line terminator character. -/
def needsQuote (f : List Char) : Bool :=
  f.any (fun c => c = ',' || c = dquote || c = '\r' || c = '\n')

/-- csv field escaping: wrap in quotes and double every quote, when needed. -/
def escField (f : List Char) : List Char :=
  if needsQuote f
  then (dquote :: f.flatMap (fun c => if c = dquote then [dquote, dquote] else [c])) ++ [dquote]
  else f

/-- One CSV row (without its line terminator). -/
def csvRow (fields : List (List Char)) : List Char :=
  List.intercalate [','] (fields.map escField)

/-- The csv writer's default line terminator. -/
def crlf : List Char := ['\r', '\n']

/-- The header row and data rows of the CSV output. -/
def csvBody (results : List MatchRecord) : List Char :=
  csvRow csvHeader ++ crlf
  ++ results.flatMap (fun r => csvRow (csvFields r) ++ crlf)

/-- Lines 138-149 `export_csv`: the project line, the header row, one row per
record. -/
def export_csv (results : List MatchRecord) (project_name : List Char) : List Char :=
  ("Project: ").data ++ project_name ++ ("\n").data ++ csvBody results

/-- posixpath `basename`: the part after the last slash. -/
def basename (p : List Char) : List Char :=
  (p.reverse.takeWhile (fun c => c ≠ '/')).reverse

/-- posixpath `dirname`: the part up to the last slash, with trailing slashes
stripped unless the result is all slashes. -/
def dirname (p : List Char) : List Char :=
  let head := (p.reverse.dropWhile (fun c => c ≠ '/')).reverse
  if head.isEmpty || head.all (fun c => c = '/') then head
  else (head.reverse.dropWhile (fun c => c = '/')).reverse

/-- The output format chosen by `--format`. -/
inductive Fmt
  | md
  | csv
deriving DecidableEq

/-- The extension used for the default output name. -/
def fmtExt : Fmt → List Char
  | .md => ("md").data
  | .csv => ("csv").data

/-- The parsed command-line arguments. -/
structure Args where
  directory : List Char
  format : Fmt
  output : Option (List Char)
  category : Option (List Char)

/-- The `defaultdict(int)` bump of lines 180-184: increment the counter of a
key, creating it at the end on first sight. -/
def bumpCount (g : List (List Char × Nat)) (k : List Char) : List (List Char × Nat) :=
  match g with
  | [] => [(k, 1)]
  | kv :: rest => if kv.1 = k then (kv.1, kv.2 + 1) :: rest else kv :: bumpCount rest k

/-- Counters keyed by a record projection, in first-seen key order. -/
def countBy (f : MatchRecord → List Char) (rs : List MatchRecord) : List (List Char × Nat) :=
  rs.foldl (fun g r => bumpCount g (f r)) []

/-- `analyzer.patterns[category]` (empty for a key outside the table, which
cannot occur for scan-produced records). -/
def patternsOf (cat : List Char) : List Pattern :=
  match patterns.find? (fun cp => cp.1 == cat) with
  | some cp => cp.2
  | none => []

/-- Python `in` on strings: contiguous substring test. -/
def isSubstring : List Char → List Char → Bool
  | n, [] => n.isEmpty
  | n, c :: rest => n.isPrefixOf (c :: rest) || isSubstring n rest

/-- The summary lines after the first (lines 187-194): the destination, the
total, and a per-category breakdown that keeps a function name iff it occurs
as a substring of one of the category's raw regexes (`func in pattern`),
sorted by name. -/
def summaryBody (outPath : List Char) (results : List MatchRecord) : List Char :=
  ("Results saved to ").data ++ outPath ++ ("\n").data
  ++ ("\nFound ").data ++ natStr results.length ++ (" total occurrences:\n").data
  ++ ((countBy (fun r => r.category) results).flatMap fun cc =>
      ("\n").data ++ pyTitle cc.1 ++ ("s (").data ++ natStr cc.2 ++ (" total):\n").data
      ++ (sortLe (fun a b => !(lexLt b.1 a.1))
            ((countBy (fun r => r.function) results).filter fun fc =>
              (patternsOf cc.1).any fun p => isSubstring fc.1 p.raw)).flatMap fun fc =>
          ("  - ").data ++ fc.1 ++ (": ").data ++ natStr fc.2 ++ ("\n").data)

/-- Lines 186-194: the terminal summary text. -/
def summaryText (project outPath : List Char) (results : List MatchRecord) : List Char :=
  ("\nAnalysis complete for ").data ++ project ++ ("!\n").data
  ++ summaryBody outPath results

/-- What a run produces: the written output file (path and text), the
terminal summary, and the exit code. -/
structure MainResult where
  written : Option (List Char × List Char)
  summary : List Char
  exitCode : Nat
deriving DecidableEq

/-- Lines 151-194 `main`.  `scriptPath` is `os.path.abspath(__file__)`;
`lookupFs` gives the filesystem view `Path(d).rglob('*.php')` observes for a
root argument `d`.  The code has no fatal path after argument parsing: it
always writes one report and exits 0. -/
def main (scriptPath : List Char) (lookupFs : List Char → FileSystem) (args : Args) :
    MainResult :=
  let outPath := args.output.getD (("wp_hooks_analysis.").data ++ fmtExt args.format)
  let project_name := basename (dirname scriptPath)
  let scanned := scan_directory (lookupFs args.directory)
  let results := match args.category with
    | some c => filterByCategory scanned.1 c
    | none => scanned.1
  let report := match args.format with
    | .md => export_markdown results project_name
    | .csv => export_csv results project_name
  { written := some (outPath, report)
    summary := summaryText project_name outPath results
    exitCode := 0 }

/-
Spec-side definitions.  The following definitions are not translations of
the source; each follows the words of the specification and is compared
against the source-derived definitions above.
-/

/-- Modelled from the spec (§4.1 highlighting): replace only the first
(leftmost) occurrence of `old` in `s`. -/
def replaceFirst : List Char → List Char → List Char → List Char
  | [], _, _ => []
  | c :: rest, old, new =>
    if old.isPrefixOf (c :: rest) then new ++ (c :: rest).drop old.length
    else c :: replaceFirst rest old new

/-- The number of non-overlapping occurrences of `old` in `s`, counted by the
same left-to-right scan `str.replace` performs. -/
def countOccAux (old : List Char) : Nat → List Char → Nat
  | _, [] => 0
  | 0, _ => 0
  | fuel + 1, c :: rest =>
    if old.isPrefixOf (c :: rest) then 1 + countOccAux old fuel ((c :: rest).drop old.length)
    else countOccAux old fuel rest

/-- Occurrence count of `old` in `s` (Python `s.count(old)` for nonempty `old`). -/
def countOcc (s old : List Char) : Nat := countOccAux old s.length s

/-- Modelled from the spec (§6 tabular format, standard CSV quoting): consume
one unquoted field, returning the field and the remainder starting at the
separating comma (if any). -/
def takeUnquoted : List Char → List Char × List Char
  | [] => ([], [])
  | c :: rest =>
    if c = ',' then ([], c :: rest)
    else
      let fr := takeUnquoted rest
      (c :: fr.1, fr.2)

/-- Modelled from the spec: consume the body of a quoted field (the opening
quote already consumed), decoding doubled quotes, returning the field and
the remainder after the closing quote. -/
def takeQuoted : List Char → List Char × List Char
  | [] => ([], [])
  | c :: rest =>
    if c = dquote then
      match rest with
      | [] => ([], [])
      | c2 :: rest2 =>
        if c2 = dquote then
          let fr := takeQuoted rest2
          (dquote :: fr.1, fr.2)
        else ([], rest)
    else
      let fr := takeQuoted rest
      (c :: fr.1, fr.2)

/-- Modelled from the spec: parse one CSV row string back into its fields.
Fuel decreases once per field; a row of a nonempty field list is parsed with
any fuel at least the number of fields. -/
def parseRowAux : Nat → List Char → List (List Char)
  | 0, _ => []
  | fuel + 1, s =>
    match s with
    | [] => [[]]
    | c :: rest =>
      if c = dquote then
        let fr := takeQuoted rest
        match fr.2 with
        | c2 :: r2 => if c2 = ',' then fr.1 :: parseRowAux fuel r2 else [fr.1]
        | [] => [fr.1]
      else
        let fr := takeUnquoted (c :: rest)
        match fr.2 with
        | c2 :: r2 => if c2 = ',' then fr.1 :: parseRowAux fuel r2 else [fr.1]
        | [] => [fr.1]

/-- Re-parse a CSV row string into its field values. -/
def parseRow (s : List Char) : List (List Char) := parseRowAux (s.length + 1) s

/-- Distinct keys in first-seen order (the key set of a `defaultdict`). -/
def firstKeysAux (seen : List (List Char)) : List (List Char) → List (List Char)
  | [] => []
  | k :: ks => if k ∈ seen then firstKeysAux seen ks else k :: firstKeysAux (k :: seen) ks

/-- Distinct keys of a list, in first-seen order. -/
def firstKeys (ks : List (List Char)) : List (List Char) := firstKeysAux [] ks

/-- The distinct function kinds present in a record list. -/
def kindsOf (crs : List MatchRecord) : List (List Char) :=
  firstKeys (crs.map fun r => r.function)

/-- Modelled from the spec (§4.3 markdown rendering): a title line with the
project label, one section per category with records, in the fixed category
order, each with one subsection per distinct function kind present, in
alphabetical order, each listing that kind's records. -/
def mdSpec (results : List MatchRecord) (project : List Char) : List Char :=
  ("# ").data ++ project ++ ("\n\n").data
  ++ ("## WordPress Hooks Analysis\n\n").data
  ++ (categoryOrder.flatMap fun cat =>
      if (results.filter (fun r => r.category == cat)).isEmpty then [] else
        ("\n### ").data ++ pyTitle cat ++ ("s\n\n").data
        ++ (sortLe (fun a b => !(lexLt b a))
              (kindsOf (results.filter (fun r => r.category == cat)))).flatMap fun k =>
            subsectionText
              (k, (results.filter (fun r => r.category == cat)).filter
                (fun r => r.function == k)))

/-- Prepend an index to a record's position key. -/
def consKey (i : Nat) (t : List Nat × MatchRecord) : List Nat × MatchRecord :=
  (i :: t.1, t.2)

/-- Iterate a keyed generator over a list, prefixing each produced key with
the element's index (starting at `k`). -/
def keyedEnum {α : Type} (g : Nat → α → List (List Nat × MatchRecord)) (k : Nat)
    (l : List α) : List (List Nat × MatchRecord) :=
  (List.enumFrom k l).flatMap fun ia => (g ia.1 ia.2).map (consKey ia.1)

/-- The keyed variant of the per-line matcher: every record of a line paired
with its position key `[category index, rule index, match position]`.  The
keyed variants exist only to state the ordering claim; their second
components are exactly the corresponding record lists. -/
def keyedLine (path : List Char) (lineNum : Nat) (line : List Char) :
    List (List Nat × MatchRecord) :=
  keyedEnum (fun _ cp =>
    keyedEnum (fun _ p =>
      (finditer p line).map fun m => ([m.1], mkRecordFor path lineNum line cp.1 m)) 0 cp.2)
    0 patterns

/-- A file's records keyed by `[line index, category index, rule index,
match position]` (the record's 1-based line number is the line index plus
one). -/
def keyedFile (f : SrcFile) : List (List Nat × MatchRecord) :=
  match f.content with
  | .error _ => []
  | .ok lines => keyedEnum (fun idx raw => keyedLine f.path (idx + 1) (pyStrip raw)) 0 lines

/-- All scan records keyed by `[file index, line index, category index,
rule index, match position]`. -/
def keyedScan (files : List SrcFile) : List (List Nat × MatchRecord) :=
  keyedEnum (fun _ f => keyedFile f) 0 files

/-- Strict lexicographic order on position keys. -/
def keyLt (x y : List Nat × MatchRecord) : Prop := List.Lex (fun a b : Nat => a < b) x.1 y.1

/-- A one-record line used as a concrete input below. -/
def dupLine : List Char := ("do_action(\"init\"); do_action(\"init\");").data

/-- The text matched (twice) inside `dupLine`. -/
def dupText : List Char := ("do_action(\"init\"").data

/-- A filesystem view on which no root directory can be enumerated. -/
def noRootFs : List Char → FileSystem := fun _ => ⟨false, []⟩

/-- Default markdown arguments naming a missing root. -/
def mdArgs : Args := ⟨("/nope").data, .md, none, none⟩

/-
Lemmas.
-/

theorem countOccAux_zero (old new : List Char) :
    ∀ (fuel : Nat) (s : List Char), countOccAux old fuel s = 0 →
      replaceAllAux old new fuel s = s := by
  intro fuel
  induction fuel with
  | zero => intro s _; cases s <;> rfl
  | succ n ih =>
    intro s h
    cases s with
    | nil => rfl
    | cons c rest =>
      by_cases hp : old.isPrefixOf (c :: rest) = true
      · simp [countOccAux, hp] at h
      · simp only [countOccAux, hp, if_false, replaceAllAux] at *
        simp [hp, ih rest h]

theorem replaceAllAux_eq_replaceFirst (old new : List Char) :
    ∀ (fuel : Nat) (s : List Char), countOccAux old fuel s = 1 →
      replaceAllAux old new fuel s = replaceFirst s old new := by
  intro fuel
  induction fuel with
  | zero => intro s h; cases s <;> simp [countOccAux] at h
  | succ n ih =>
    intro s h
    cases s with
    | nil => simp [countOccAux] at h
    | cons c rest =>
      by_cases hp : old.isPrefixOf (c :: rest) = true
      · simp only [countOccAux, hp, if_true] at h
        have h0 : countOccAux old n ((c :: rest).drop old.length) = 0 := by omega
        simp [replaceAllAux, replaceFirst, hp, countOccAux_zero old new n _ h0]
      · simp only [countOccAux, hp, if_false] at h
        simp [replaceAllAux, replaceFirst, hp, ih rest h]

/-- C1 fails on the code: `str.replace` marks every occurrence.  On a line
where the matched call text occurs twice, both records' renderings differ
from the replace-only-the-first rendering the claim describes (both
occurrences carry markers). -/
theorem highlight_not_first_only :
    2 ≤ countOcc dupLine dupText ∧
    (lineMatches (("a.php").data) 1 dupLine).length = 2 ∧
    ∀ r ∈ lineMatches (("a.php").data) 1 dupLine,
      r.highlighted_line ≠ replaceFirst dupLine dupText ((btick :: dupText) ++ [btick]) := by
  decide

/-- C1 amended: the rendering wraps every non-overlapping occurrence of the
record's full matched substring (`str.replace` replaces all); when that
substring occurs exactly once in the line — in particular for the same call
repeated with different identifiers — the rendering marks exactly the
record's own occurrence. -/
theorem highlight_wraps_every_occurrence (path : List Char) (n : Nat) (line cat : List Char)
    (m : Nat × Nat) :
    (mkRecordFor path n line cat m).highlighted_line
      = replaceAll line ((line.drop m.1).take m.2)
          ((btick :: (line.drop m.1).take m.2) ++ [btick]) ∧
    (countOcc line ((line.drop m.1).take m.2) = 1 →
      (mkRecordFor path n line cat m).highlighted_line
        = replaceFirst line ((line.drop m.1).take m.2)
            ((btick :: (line.drop m.1).take m.2) ++ [btick])) := by
  refine ⟨rfl, fun h1 => ?_⟩
  exact replaceAllAux_eq_replaceFirst _ _ _ _ h1

/-- Witness for the amended C1: on a line with the same call twice under
different identifiers, the first record's matched text occurs once and its
rendering marks exactly its own occurrence. -/
theorem highlight_wraps_every_occurrence_witness :
    countOcc (("do_action(\"aa\"); do_action(\"bb\");").data) (("do_action(\"aa\"").data) = 1 ∧
    (mkRecordFor (("a.php").data) 1 (("do_action(\"aa\"); do_action(\"bb\");").data)
        (("action").data) (0, 14)).highlighted_line
      = replaceFirst (("do_action(\"aa\"); do_action(\"bb\");").data) (("do_action(\"aa\"").data)
          ((btick :: (("do_action(\"aa\"").data)) ++ [btick]) :=
  ⟨by decide,
   (highlight_wraps_every_occurrence (("a.php").data) 1
     (("do_action(\"aa\"); do_action(\"bb\");").data) (("action").data) (0, 14)).2 (by decide)⟩

/-- C2 fails on the code: on a missing root directory `Path.rglob` yields
nothing and raises nothing, so the run completes normally (exit 0) and a
header-only report is still written. -/
theorem missing_root_still_writes_report :
    (main (("/w/spotlight.py").data) noRootFs mdArgs).written
      = some ((("wp_hooks_analysis.md").data), (("# w\n\n## WordPress Hooks Analysis\n\n").data)) ∧
    (main (("/w/spotlight.py").data) noRootFs mdArgs).written ≠ none ∧
    (main (("/w/spotlight.py").data) noRootFs mdArgs).exitCode = 0 := by
  decide

/-- C2 amended: an absent (or unreadable) root yields an empty result set;
the run completes with exit code 0 and still writes a report containing only
the title/header material (the report of an empty record list). -/
theorem missing_root_scan_empty (sp : List Char) (lookupFs : List Char → FileSystem)
    (args : Args) (h : (lookupFs args.directory).rootExists = false) :
    scan_directory (lookupFs args.directory) = ([], []) ∧
    (main sp lookupFs args).written
      = some (args.output.getD (("wp_hooks_analysis.").data ++ fmtExt args.format),
          match args.format with
          | .md => export_markdown [] (basename (dirname sp))
          | .csv => export_csv [] (basename (dirname sp))) ∧
    (main sp lookupFs args).exitCode = 0 := by
  have hscan : scan_directory (lookupFs args.directory) = ([], []) := by
    unfold scan_directory
    rw [h]
    simp
  refine ⟨hscan, ?_, rfl⟩
  show (main sp lookupFs args).written = _
  unfold main
  rw [hscan]
  cases args.category <;> cases args.format <;> simp [filterByCategory]

/-- Witness for the amended C2 at a concrete missing root, csv format. -/
theorem missing_root_scan_empty_witness :
    scan_directory (noRootFs (("/gone").data)) = ([], []) ∧
    (main (("/w/spotlight.py").data) noRootFs ⟨("/gone").data, .csv, none, none⟩).written
      = some ((("wp_hooks_analysis.csv").data), export_csv [] (("w").data)) ∧
    (main (("/w/spotlight.py").data) noRootFs ⟨("/gone").data, .csv, none, none⟩).exitCode = 0 := by
  have h := missing_root_scan_empty (("/w/spotlight.py").data) noRootFs
    ⟨("/gone").data, .csv, none, none⟩ (by decide)
  exact ⟨h.1, by rw [h.2.1]; decide, h.2.2⟩

/-- C3: a file whose open/decode/read fails contributes exactly one
diagnostic naming the file and the error, contributes no records, and the
scan of the remaining files is unaffected. -/
theorem failed_file_skipped (bad : SrcFile) (e : List Char)
    (he : bad.content = .error e) (pre post : List SrcFile) :
    find_matches bad = ([], [errMsg bad.path e]) ∧
    (scan_directory ⟨true, pre ++ bad :: post⟩).1
      = (scan_directory ⟨true, pre⟩).1 ++ (scan_directory ⟨true, post⟩).1 ∧
    errMsg bad.path e ∈ (scan_directory ⟨true, pre ++ bad :: post⟩).2 := by
  have h1 : find_matches bad = ([], [errMsg bad.path e]) := by
    unfold find_matches
    rw [he]
  refine ⟨h1, ?_, ?_⟩
  · simp [scan_directory, h1]
  · simp only [scan_directory, if_true]
    refine List.mem_flatMap.2 ⟨bad, ?_, ?_⟩
    · simp
    · rw [h1]
      simp

/-- Witness for C3: one failing file among two good ones. -/
theorem failed_file_skipped_witness :
    find_matches ⟨("b.php").data, .error (("bad utf-8").data)⟩
      = ([], [errMsg (("b.php").data) (("bad utf-8").data)]) ∧
    (scan_directory ⟨true, [⟨("a.php").data, .ok [("do_action(\"x\");").data]⟩,
        ⟨("b.php").data, .error (("bad utf-8").data)⟩,
        ⟨("c.php").data, .ok [("add_filter(\"y\");").data]⟩]⟩).1
      = (scan_directory ⟨true, [⟨("a.php").data, .ok [("do_action(\"x\");").data]⟩]⟩).1
        ++ (scan_directory ⟨true, [⟨("c.php").data, .ok [("add_filter(\"y\");").data]⟩]⟩).1 ∧
    errMsg (("b.php").data) (("bad utf-8").data)
      ∈ (scan_directory ⟨true, [⟨("a.php").data, .ok [("do_action(\"x\");").data]⟩,
          ⟨("b.php").data, .error (("bad utf-8").data)⟩,
          ⟨("c.php").data, .ok [("add_filter(\"y\");").data]⟩]⟩).2 :=
  failed_file_skipped ⟨("b.php").data, .error (("bad utf-8").data)⟩ (("bad utf-8").data) rfl
    [⟨("a.php").data, .ok [("do_action(\"x\");").data]⟩]
    [⟨("c.php").data, .ok [("add_filter(\"y\");").data]⟩]

/-- C6: category filtering returns exactly the records whose category equals
`c`, as a subsequence of the input (original order), and is idempotent. -/
theorem filterByCategory_spec (R : List MatchRecord) (c : List Char) :
    (∀ r, r ∈ filterByCategory R c ↔ r ∈ R ∧ r.category = c) ∧
    List.Sublist (filterByCategory R c) R ∧
    filterByCategory (filterByCategory R c) c = filterByCategory R c := by
  refine ⟨fun r => ?_, List.filter_sublist _, ?_⟩
  · simp [filterByCategory, List.mem_filter]
  · simp [filterByCategory, List.filter_filter]

theorem export_markdown_starts_with_label (results : List MatchRecord) (B : List Char) :
    ∃ rest, export_markdown results B = ("# ").data ++ B ++ rest := by
  refine ⟨("\n\n").data ++ ("## WordPress Hooks Analysis\n\n").data ++ mdBody results, ?_⟩
  simp only [export_markdown, List.append_assoc]

theorem export_csv_starts_with_label (results : List MatchRecord) (B : List Char) :
    ∃ rest, export_csv results B = ("Project: ").data ++ B ++ rest := by
  refine ⟨("\n").data ++ csvBody results, ?_⟩
  simp only [export_csv, List.append_assoc]

theorem summary_starts_with_label (B out : List Char) (results : List MatchRecord) :
    ∃ rest, summaryText B out results
      = ("\nAnalysis complete for ").data ++ B ++ ("!\n").data ++ rest := by
  refine ⟨summaryBody out results, ?_⟩
  simp only [summaryText, List.append_assoc]

/-- C10: the project label at the top of either report, and echoed first in
the terminal summary, is the basename of the directory containing the
script file; it is a function of the script path alone, the same for every
scanned root argument and filesystem. -/
theorem project_label_spec (sp : List Char) (lookupFs : List Char → FileSystem) (args : Args) :
    (∃ out rest, (main sp lookupFs args).written
        = some (out,
            (match args.format with
             | .md => ("# ").data
             | .csv => ("Project: ").data) ++ basename (dirname sp) ++ rest)) ∧
    (∃ rest, (main sp lookupFs args).summary
        = ("\nAnalysis complete for ").data ++ basename (dirname sp) ++ ("!\n").data ++ rest) := by
  constructor
  · cases hf : args.format with
    | md =>
      obtain ⟨rest, hr⟩ := export_markdown_starts_with_label
        (match args.category with
         | some c => filterByCategory (scan_directory (lookupFs args.directory)).1 c
         | none => (scan_directory (lookupFs args.directory)).1) (basename (dirname sp))
      exact ⟨args.output.getD (("wp_hooks_analysis.").data ++ fmtExt args.format), rest,
        by simp only [main, hf, hr]⟩
    | csv =>
      obtain ⟨rest, hr⟩ := export_csv_starts_with_label
        (match args.category with
         | some c => filterByCategory (scan_directory (lookupFs args.directory)).1 c
         | none => (scan_directory (lookupFs args.directory)).1) (basename (dirname sp))
      exact ⟨args.output.getD (("wp_hooks_analysis.").data ++ fmtExt args.format), rest,
        by simp only [main, hf, hr]⟩
  · obtain ⟨rest, hr⟩ := summary_starts_with_label (basename (dirname sp))
      (args.output.getD (("wp_hooks_analysis.").data ++ fmtExt args.format))
      (match args.category with
       | some c => filterByCategory (scan_directory (lookupFs args.directory)).1 c
       | none => (scan_directory (lookupFs args.directory)).1)
    exact ⟨rest, by simp only [main, hr]⟩

theorem isPrefixOf_iff_append (l₁ l₂ : List Char) :
    l₁.isPrefixOf l₂ = true ↔ ∃ t, l₂ = l₁ ++ t := by
  induction l₁ generalizing l₂ with
  | nil => simp [List.isPrefixOf]
  | cons a as ih =>
    cases l₂ with
    | nil => simp [List.isPrefixOf]
    | cons b bs =>
      simp only [List.isPrefixOf, Bool.and_eq_true, beq_iff_eq, ih, List.cons_append,
        List.cons.injEq]
      constructor
      · rintro ⟨rfl, t, rfl⟩
        exact ⟨t, rfl, rfl⟩
      · rintro ⟨t, rfl, rfl⟩
        exact ⟨rfl, t, rfl⟩

theorem drop_length_takeWhile (P : Char → Bool) (l : List Char) :
    l.drop (l.takeWhile P).length = l.dropWhile P := by
  induction l with
  | nil => rfl
  | cons c rest ih =>
    by_cases h : P c = true
    · simp [List.takeWhile_cons, List.dropWhile_cons, h, ih]
    · simp [List.takeWhile_cons, List.dropWhile_cons, h]

theorem pfx_length_pos (p : Pattern) : 0 < p.pfx.length := by
  simp [Pattern.pfx]

theorem matchHere_quoted_decomp (p : Pattern) (hq : p.quoted = true) (s : List Char)
    (len : Nat) (h : matchHere p s = some len) :
    ∃ q1 run q2 rest2,
      s = p.pfx ++ q1 :: (run ++ q2 :: rest2) ∧
      isQuote q1 = true ∧ isQuote q2 = true ∧ run ≠ [] ∧
      (∀ c ∈ run, isIdentChar c = true) ∧
      len = p.pfx.length + 1 + run.length + 1 ∧
      s.take len = p.pfx ++ q1 :: (run ++ [q2]) := by
  unfold matchHere at h
  rw [hq] at h
  split at h
  · rw [if_pos rfl] at h
    rename_i hpre
    obtain ⟨t, rfl⟩ := (isPrefixOf_iff_append _ _).1 hpre
    rw [List.drop_left] at h
    split at h
    · exact Option.noConfusion h
    · rename_i q1 rest
      split at h
      · rename_i hq1
        split at h
        · exact Option.noConfusion h
        · rename_i hrun
          rw [drop_length_takeWhile] at h
          split at h
          · exact Option.noConfusion h
          · rename_i q2 rest2 hdw
            split at h
            · rename_i hq2
              have hlen := Option.some.inj h
              have hr : rest = rest.takeWhile isIdentChar ++ q2 :: rest2 := by
                conv_lhs => rw [(List.takeWhile_append_dropWhile isIdentChar rest).symm]
                rw [hdw]
              have hne : rest.takeWhile isIdentChar ≠ [] := by
                intro hcon
                rw [hcon] at hrun
                exact hrun rfl
              refine ⟨q1, rest.takeWhile isIdentChar, q2, rest2, ?_, hq1, hq2, hne,
                fun c hc => List.mem_takeWhile_imp hc, hlen.symm, ?_⟩
              · rw [← hr]
              · have hshape : p.pfx ++ q1 :: rest
                    = (p.pfx ++ q1 :: (rest.takeWhile isIdentChar ++ [q2])) ++ rest2 := by
                  conv_lhs => rw [hr]
                  simp
                rw [hshape]
                rw [← hlen]
                apply List.take_left'
                simp only [List.length_append, List.length_cons, List.length_nil]
                omega
            · exact Option.noConfusion h
      · exact Option.noConfusion h
  · exact Option.noConfusion h

theorem matchHere_bare_decomp (p : Pattern) (hq : p.quoted = false) (s : List Char)
    (len : Nat) (h : matchHere p s = some len) :
    len = p.pfx.length ∧ (∃ t, s = p.pfx ++ t) ∧ s.take len = p.pfx := by
  unfold matchHere at h
  rw [hq] at h
  by_cases hpre : p.pfx.isPrefixOf s = true
  · obtain ⟨t, rfl⟩ := (isPrefixOf_iff_append _ _).1 hpre
    rw [if_pos hpre] at h
    simp only [Bool.false_eq_true, if_false] at h
    have hlen := Option.some.inj h
    refine ⟨hlen.symm, ⟨t, rfl⟩, ?_⟩
    rw [← hlen]
    exact List.take_left' rfl
  · rw [if_neg (by simpa using hpre)] at h
    cases h

theorem matchHere_bare_of_append (p : Pattern) (hq : p.quoted = false) (t : List Char) :
    matchHere p (p.pfx ++ t) = some p.pfx.length := by
  unfold matchHere
  rw [hq]
  rw [if_pos ((isPrefixOf_iff_append _ _).2 ⟨t, rfl⟩)]
  simp

theorem matchHere_pos (p : Pattern) (s : List Char) (len : Nat)
    (h : matchHere p s = some len) : 1 ≤ len := by
  have hpos := pfx_length_pos p
  cases hq : p.quoted with
  | true =>
    obtain ⟨q1, run, q2, rest2, _, _, _, _, _, hlen, _⟩ := matchHere_quoted_decomp p hq s len h
    omega
  | false =>
    have := (matchHere_bare_decomp p hq s len h).1
    omega

theorem matchHere_ne_nil (p : Pattern) (s : List Char) (len : Nat)
    (h : matchHere p s = some len) : s ≠ [] := by
  have hpos := pfx_length_pos p
  cases hq : p.quoted with
  | true =>
    obtain ⟨q1, run, q2, rest2, hs, _⟩ := matchHere_quoted_decomp p hq s len h
    intro hcon
    rw [hcon] at hs
    have := congrArg List.length hs
    simp at this
    omega
  | false =>
    obtain ⟨_, ⟨t, hs⟩, _⟩ := matchHere_bare_decomp p hq s len h
    intro hcon
    rw [hcon] at hs
    have := congrArg List.length hs
    simp at this
    omega

theorem matchHere_lt_length (p : Pattern) (l : List Char) (j len : Nat)
    (h : matchHere p (l.drop j) = some len) : j < l.length := by
  have hne := matchHere_ne_nil p (l.drop j) len h
  by_contra hcon
  exact hne (List.drop_eq_nil_of_le (by omega))

theorem finditerAux_sound (p : Pattern) (l : List Char) :
    ∀ (fuel i : Nat), ∀ m ∈ finditerAux p l fuel i,
      i ≤ m.1 ∧ matchHere p (l.drop m.1) = some m.2 := by
  intro fuel
  induction fuel with
  | zero =>
    intro i m hm
    simp [finditerAux] at hm
  | succ n ih =>
    intro i m hm
    by_cases hi : i < l.length
    · rw [finditerAux, if_pos hi] at hm
      cases hmh : matchHere p (l.drop i) with
      | none =>
        rw [hmh] at hm
        have := ih (i + 1) m hm
        exact ⟨by omega, this.2⟩
      | some len =>
        rw [hmh] at hm
        rcases List.mem_cons.1 hm with rfl | hm2
        · exact ⟨Nat.le_refl _, hmh⟩
        · have := ih (i + max 1 len) m hm2
          refine ⟨by omega, this.2⟩
    · rw [finditerAux, if_neg hi] at hm
      cases hm

theorem finditerAux_chain (p : Pattern) (l : List Char) :
    ∀ (fuel i : Nat), (finditerAux p l fuel i).Pairwise (fun a b => a.1 + a.2 ≤ b.1) := by
  intro fuel
  induction fuel with
  | zero =>
    intro i
    simp [finditerAux]
  | succ n ih =>
    intro i
    by_cases hi : i < l.length
    · rw [finditerAux, if_pos hi]
      cases hmh : matchHere p (l.drop i) with
      | none => exact ih (i + 1)
      | some len =>
        refine List.Pairwise.cons ?_ (ih (i + max 1 len))
        intro m hm
        have := (finditerAux_sound p l n (i + max 1 len) m hm).1
        simp only
        omega
    · rw [finditerAux, if_neg hi]
      exact List.Pairwise.nil

theorem finditerAux_complete (p : Pattern) (l : List Char) :
    ∀ (fuel i j len : Nat), matchHere p (l.drop j) = some len → i ≤ j →
      l.length - i ≤ fuel →
      (j, len) ∈ finditerAux p l fuel i ∨
      ∃ m ∈ finditerAux p l fuel i, m.1 < j ∧ j < m.1 + m.2 := by
  intro fuel
  induction fuel with
  | zero =>
    intro i j len hm hij hfuel
    exfalso
    have := matchHere_lt_length p l j len hm
    omega
  | succ n ih =>
    intro i j len hm hij hfuel
    have hjlen : j < l.length := matchHere_lt_length p l j len hm
    have hi : i < l.length := by omega
    by_cases hij2 : i = j
    · subst hij2
      left
      rw [finditerAux, if_pos hi, hm]
      exact List.mem_cons_self _ _
    · have hij3 : i < j := by omega
      cases hmi : matchHere p (l.drop i) with
      | none =>
        have hrec := ih (i + 1) j len hm (by omega) (by omega)
        rw [finditerAux, if_pos hi, hmi]
        exact hrec
      | some len0 =>
        have h1 : 1 ≤ len0 := matchHere_pos p _ _ hmi
        have hmax : max 1 len0 = len0 := by omega
        by_cases hcov : j < i + len0
        · right
          refine ⟨(i, len0), ?_, hij3, hcov⟩
          rw [finditerAux, if_pos hi, hmi]
          exact List.mem_cons_self _ _
        · have hrec := ih (i + max 1 len0) j len hm (by omega) (by omega)
          rw [finditerAux, if_pos hi, hmi]
          rcases hrec with hmem | ⟨m, hmem, hlt1, hlt2⟩
          · left
            exact List.mem_cons_of_mem _ hmem
          · right
            exact ⟨m, List.mem_cons_of_mem _ hmem, hlt1, hlt2⟩

theorem finditer_sound (p : Pattern) (l : List Char) :
    ∀ m ∈ finditer p l, matchHere p (l.drop m.1) = some m.2 :=
  fun m hm => (finditerAux_sound p l l.length 0 m hm).2

theorem finditer_chain (p : Pattern) (l : List Char) :
    (finditer p l).Pairwise (fun a b => a.1 + a.2 ≤ b.1) :=
  finditerAux_chain p l l.length 0

theorem finditer_complete (p : Pattern) (l : List Char) (j len : Nat)
    (hm : matchHere p (l.drop j) = some len) :
    (j, len) ∈ finditer p l ∨ ∃ m ∈ finditer p l, m.1 < j ∧ j < m.1 + m.2 :=
  finditerAux_complete p l l.length 0 j len hm (Nat.zero_le _) (by omega)

theorem quote_not_ident (c : Char) (h : isQuote c = true) : isIdentChar c = false := by
  have hc : c = squote ∨ c = dquote := by
    simpa [isQuote] using h
  rcases hc with rfl | rfl <;> decide

theorem ident_not_quote (c : Char) (h : isIdentChar c = true) : isQuote c = false := by
  by_contra hq
  have hq2 : isQuote c = true := by
    simpa using hq
  rw [quote_not_ident c hq2] at h
  cases h

theorem takeWhile_run_stop (P : Char → Bool) (u : List Char) (v : Char) (w : List Char)
    (hu : ∀ c ∈ u, P c = true) (hv : P v = false) :
    (u ++ v :: w).takeWhile P = u ∧ (u ++ v :: w).dropWhile P = v :: w := by
  induction u with
  | nil => simp [List.takeWhile_cons, List.dropWhile_cons, hv]
  | cons c u' ih =>
    have hc : P c = true := hu c (List.mem_cons_self _ _)
    have := ih (fun d hd => hu d (List.mem_cons_of_mem _ hd))
    simp [List.takeWhile_cons, List.dropWhile_cons, hc, this.1, this.2]

theorem quotedTokHere_cons_not_quote (c : Char) (t : List Char) (h : isQuote c = false) :
    quotedTokHere (c :: t) = none := by
  simp [quotedTokHere, h]

theorem quotedTokHere_exact (q1 q2 : Char) (run tail : List Char)
    (h1 : isQuote q1 = true) (h2 : isQuote q2 = true) (hr : run ≠ [])
    (hrc : ∀ c ∈ run, isIdentChar c = true) :
    quotedTokHere (q1 :: (run ++ q2 :: tail)) = some ((q1 :: run) ++ [q2]) := by
  have hstop := takeWhile_run_stop isIdentChar run q2 tail hrc (quote_not_ident q2 h2)
  simp [quotedTokHere, h1, h2, hstop.1, List.drop_left, List.isEmpty_iff, hr]

theorem searchQuoted_skip (u : List Char) (s : List Char)
    (hu : ∀ c ∈ u, isQuote c = false) :
    searchQuoted (u ++ s) = searchQuoted s := by
  induction u with
  | nil => rfl
  | cons c u' ih =>
    have hc := hu c (List.mem_cons_self _ _)
    have ihs := ih (fun d hd => hu d (List.mem_cons_of_mem _ hd))
    simp only [List.cons_append, searchQuoted, quotedTokHere_cons_not_quote c _ hc]
    exact ihs

theorem searchQuoted_none (t : List Char) (h : ∀ c ∈ t, isQuote c = false) :
    searchQuoted t = none := by
  have := searchQuoted_skip t [] h
  simpa using this

theorem stripQuotes_wrap (q1 q2 : Char) (run : List Char) (h1 : isQuote q1 = true)
    (h2 : isQuote q2 = true) (hr : run ≠ []) (hrc : ∀ c ∈ run, isIdentChar c = true) :
    stripQuotes ((q1 :: run) ++ [q2]) = run := by
  cases run with
  | nil => exact absurd rfl hr
  | cons r0 rs =>
    have hr0 : isQuote r0 = false := ident_not_quote r0 (hrc r0 (List.mem_cons_self _ _))
    have hall : ∀ c ∈ rs.reverse ++ [r0], isQuote c = false := by
      intro c hc
      rcases List.mem_append.1 hc with hc1 | hc2
      · exact ident_not_quote c (hrc c (List.mem_cons_of_mem _ (List.mem_reverse.1 hc1)))
      · rcases List.mem_singleton.1 hc2 with rfl
        exact hr0
    have hdropall : ∀ (t : List Char), (∀ c ∈ t, isQuote c = false) →
        t.dropWhile isQuote = t := by
      intro t ht
      cases t with
      | nil => rfl
      | cons x xs => simp [List.dropWhile_cons, ht x (List.mem_cons_self _ _)]
    unfold stripQuotes
    have hfront : ((q1 :: (r0 :: rs)) ++ [q2]).dropWhile isQuote = (r0 :: rs) ++ [q2] := by
      simp [List.dropWhile_cons, h1, hr0]
    rw [hfront]
    have hrev : ((r0 :: rs) ++ [q2]).reverse = q2 :: (rs.reverse ++ [r0]) := by
      simp
    rw [hrev]
    have hback : (q2 :: (rs.reverse ++ [r0])).dropWhile isQuote = rs.reverse ++ [r0] := by
      rw [List.dropWhile_cons, if_pos h2]
      exact hdropall _ hall
    rw [hback]
    simp

theorem extractHookName_quoted (pfxl : List Char) (q1 q2 : Char) (run : List Char)
    (hpf : ∀ c ∈ pfxl, isQuote c = false) (h1 : isQuote q1 = true) (h2 : isQuote q2 = true)
    (hr : run ≠ []) (hrc : ∀ c ∈ run, isIdentChar c = true) :
    extractHookName (pfxl ++ q1 :: (run ++ [q2])) = run := by
  unfold extractHookName
  rw [searchQuoted_skip pfxl _ hpf]
  have htok : quotedTokHere (q1 :: (run ++ q2 :: [])) = some ((q1 :: run) ++ [q2]) :=
    quotedTokHere_exact q1 q2 run [] h1 h2 hr hrc
  simp only [searchQuoted, htok]
  exact stripQuotes_wrap q1 q2 run h1 h2 hr hrc

theorem extractHookName_no_quote (t : List Char) (h : ∀ c ∈ t, isQuote c = false) :
    extractHookName t = ("N/A").data := by
  unfold extractHookName
  rw [searchQuoted_none t h]

theorem patternsAll_pfx_no_quote : ∀ p ∈ patternsAll, ∀ c ∈ p.pfx, isQuote c = false := by
  decide

/-- C4: for an identifier-bearing pattern, the match list is exactly the
non-overlapping left-to-right occurrences of the pattern (every listed match
matches, listed matches do not overlap, and any position where the pattern
matches is either listed or strictly inside a listed match), and the
extracted identifier of every match is the quoted content minus its quote
characters (a nonempty word-or-hyphen run between two quotes). -/
theorem quoted_pattern_match_spec (p : Pattern) (hp : p ∈ patternsAll)
    (hq : p.quoted = true) (line : List Char) :
    (∀ m ∈ finditer p line, matchHere p (line.drop m.1) = some m.2) ∧
    (finditer p line).Pairwise (fun a b => a.1 + a.2 ≤ b.1) ∧
    (∀ j len, matchHere p (line.drop j) = some len →
      (j, len) ∈ finditer p line ∨ ∃ m ∈ finditer p line, m.1 < j ∧ j < m.1 + m.2) ∧
    (∀ m ∈ finditer p line, ∃ q1 ident q2,
      isQuote q1 = true ∧ isQuote q2 = true ∧ ident ≠ [] ∧
      (∀ c ∈ ident, isIdentChar c = true) ∧
      (line.drop m.1).take m.2 = p.pfx ++ q1 :: (ident ++ [q2]) ∧
      extractHookName ((line.drop m.1).take m.2) = ident ∧
      ∀ (path : List Char) (n : Nat) (cat : List Char),
        (mkRecordFor path n line cat m).hook_name = ident) := by
  refine ⟨finditer_sound p line, finditer_chain p line,
    fun j len hm => finditer_complete p line j len hm, ?_⟩
  intro m hm
  have hmh := finditer_sound p line m hm
  obtain ⟨q1, run, q2, rest2, hs, h1, h2, hne, hrc, hlen, htake⟩ :=
    matchHere_quoted_decomp p hq (line.drop m.1) m.2 hmh
  have hext : extractHookName ((line.drop m.1).take m.2) = run := by
    rw [htake]
    exact extractHookName_quoted p.pfx q1 q2 run (patternsAll_pfx_no_quote p hp) h1 h2 hne hrc
  refine ⟨q1, run, q2, h1, h2, hne, hrc, htake, hext, ?_⟩
  intro path n cat
  show extractHookName ((line.drop m.1).take m.2) = run
  exact hext

/-- Witness for C4: on the line `do_action("init");` the pattern matches at
position 0 with length 16 and the identifier is extracted from between the
quotes. -/
theorem quoted_pattern_match_spec_witness :
    ∃ q1 ident q2, isQuote q1 = true ∧ isQuote q2 = true ∧ ident ≠ [] ∧
      (∀ c ∈ ident, isIdentChar c = true) ∧
      ((("do_action(\"init\");").data).drop 0).take 16
        = (mkQ ("do_action")).pfx ++ q1 :: (ident ++ [q2]) ∧
      extractHookName (((("do_action(\"init\");").data).drop 0).take 16) = ident ∧
      ∀ (path : List Char) (n : Nat) (cat : List Char),
        (mkRecordFor path n (("do_action(\"init\");").data) cat (0, 16)).hook_name = ident :=
  (quoted_pattern_match_spec (mkQ ("do_action")) (by decide) rfl
    (("do_action(\"init\");").data)).2.2.2 (0, 16) (by decide)

/-- C9: a bare pattern (no identifier-capturing group) still yields a record
for each of its matches, the record is in the line's record list, and its
identifier field is the `N/A` sentinel; moreover a match of the bare pattern
anywhere in the line guarantees at least one match is reported. -/
theorem bare_pattern_match_spec (p : Pattern) (hp : p ∈ patternsAll)
    (hq : p.quoted = false) (path : List Char) (n : Nat) (line cat : List Char) :
    (∀ m ∈ finditer p line, (mkRecordFor path n line cat m).hook_name = ("N/A").data) ∧
    (∀ pats, (cat, pats) ∈ patterns → p ∈ pats →
      ∀ m ∈ finditer p line, mkRecordFor path n line cat m ∈ lineMatches path n line) ∧
    (∀ j len, matchHere p (line.drop j) = some len → finditer p line ≠ []) := by
  refine ⟨?_, ?_, ?_⟩
  · intro m hm
    have hmh := finditer_sound p line m hm
    obtain ⟨_, _, htake⟩ := matchHere_bare_decomp p hq (line.drop m.1) m.2 hmh
    show extractHookName ((line.drop m.1).take m.2) = ("N/A").data
    rw [htake]
    exact extractHookName_no_quote p.pfx (patternsAll_pfx_no_quote p hp)
  · intro pats hcp hpp m hm
    refine List.mem_flatMap.2 ⟨(cat, pats), hcp, ?_⟩
    refine List.mem_flatMap.2 ⟨p, hpp, ?_⟩
    exact List.mem_map_of_mem _ hm
  · intro j len hm
    rcases finditer_complete p line j len hm with hmem | ⟨m, hmem, _⟩
    · exact List.ne_nil_of_mem hmem
    · exact List.ne_nil_of_mem hmem

/-- Witness for C9: `current_filter()` at position 4 of a concrete line
yields a record carried in the line's record list whose identifier is the
`N/A` sentinel. -/
theorem bare_pattern_match_spec_witness :
    (mkRecordFor (("a.php").data) 3 (("x = current_filter();").data) (("filter").data)
        (4, 15)).hook_name = ("N/A").data ∧
    mkRecordFor (("a.php").data) 3 (("x = current_filter();").data) (("filter").data)
        (4, 15) ∈ lineMatches (("a.php").data) 3 (("x = current_filter();").data) := by
  have h := bare_pattern_match_spec (mkB ("current_filter")) (by decide) rfl
    (("a.php").data) 3 (("x = current_filter();").data) (("filter").data)
  refine ⟨h.1 (4, 15) (by decide), ?_⟩
  exact h.2.1
    [mkQ ("add_filter"), mkQ ("apply_filters"), mkQ ("has_filter"), mkQ ("remove_filter"),
     mkQ ("remove_all_filters"), mkB ("current_filter"), mkQ ("apply_filters_ref_array")]
    (by decide) (by decide) (4, 15) (by decide)

theorem takeUnquoted_exact (f rest : List Char) (hf : ∀ c ∈ f, c ≠ ',')
    (hrest : rest = [] ∨ ∃ r, rest = ',' :: r) :
    takeUnquoted (f ++ rest) = (f, rest) := by
  induction f with
  | nil =>
    rcases hrest with rfl | ⟨r, rfl⟩
    · rfl
    · simp [takeUnquoted]
  | cons c f' ih =>
    have hc : c ≠ ',' := hf c (List.mem_cons_self _ _)
    have ihh := ih (fun d hd => hf d (List.mem_cons_of_mem _ hd))
    simp [takeUnquoted, hc, ihh]

theorem takeQuoted_exact (f rest : List Char)
    (hrest : rest = [] ∨ ∃ r, rest = ',' :: r) :
    takeQuoted ((f.flatMap fun c => if c = dquote then [dquote, dquote] else [c])
        ++ dquote :: rest)
      = (f, rest) := by
  induction f with
  | nil =>
    rcases hrest with rfl | ⟨r, rfl⟩
    · rfl
    · simp [takeQuoted, show (',' : Char) ≠ dquote by decide]
  | cons c f' ih =>
    by_cases hc : c = dquote
    · subst hc
      simp only [List.flatMap_cons, if_pos rfl, List.cons_append, List.append_assoc]
      simp [takeQuoted, ih]
    · simp only [List.flatMap_cons, if_neg hc, List.cons_append, List.nil_append]
      cases hsh : (f'.flatMap fun c => if c = dquote then [dquote, dquote] else [c])
          ++ dquote :: rest with
      | nil => simp at hsh
      | cons d tl =>
        have ih2 : takeQuoted (d :: tl) = (f', rest) := by
          rw [← hsh]
          exact ih
        simp [takeQuoted, hc, ih2]

theorem not_needsQuote_chars (f : List Char) (hq : needsQuote f = false) :
    ∀ c ∈ f, c ≠ ',' ∧ c ≠ dquote := by
  intro c hc
  have h := hq
  rw [needsQuote, List.any_eq_false] at h
  have h2 := h c hc
  simp at h2
  exact ⟨h2.1.1.1, h2.1.1.2⟩

theorem parseRowAux_esc_last (f : List Char) (fuel : Nat) :
    parseRowAux (fuel + 1) (escField f) = [f] := by
  by_cases hq : needsQuote f = true
  · have ht := takeQuoted_exact f [] (Or.inl rfl)
    simp [escField, hq, parseRowAux, ht]
  · have hqf : needsQuote f = false := by simpa using hq
    have hnc : ∀ c ∈ f, c ≠ ',' := fun c hc => (not_needsQuote_chars f hqf c hc).1
    have hnd : ∀ c ∈ f, c ≠ dquote := fun c hc => (not_needsQuote_chars f hqf c hc).2
    cases f with
    | nil => simp [escField, hq, parseRowAux]
    | cons c f' =>
      have hcd : c ≠ dquote := hnd c (List.mem_cons_self _ _)
      have ht := takeUnquoted_exact (c :: f') [] hnc (Or.inl rfl)
      rw [List.append_nil] at ht
      rw [show escField (c :: f') = c :: f' by simp [escField, hq]]
      simp [parseRowAux, hcd, ht]

theorem parseRowAux_esc_cons (f : List Char) (r : List Char) (fuel : Nat) :
    parseRowAux (fuel + 1) (escField f ++ ',' :: r) = f :: parseRowAux fuel r := by
  by_cases hq : needsQuote f = true
  · have ht := takeQuoted_exact f (',' :: r) (Or.inr ⟨r, rfl⟩)
    have hesc : escField f ++ ',' :: r
        = dquote :: ((f.flatMap fun c => if c = dquote then [dquote, dquote] else [c])
            ++ dquote :: (',' :: r)) := by
      simp [escField, hq]
    rw [hesc]
    simp [parseRowAux, ht]
  · have hqf : needsQuote f = false := by simpa using hq
    have hnc : ∀ c ∈ f, c ≠ ',' := fun c hc => (not_needsQuote_chars f hqf c hc).1
    have hnd : ∀ c ∈ f, c ≠ dquote := fun c hc => (not_needsQuote_chars f hqf c hc).2
    cases f with
    | nil =>
      rw [show escField [] ++ ',' :: r = ',' :: r by simp [escField, needsQuote]]
      simp [parseRowAux, takeUnquoted, show (',' : Char) ≠ dquote by decide]
    | cons c f' =>
      have hcd : c ≠ dquote := hnd c (List.mem_cons_self _ _)
      have ht := takeUnquoted_exact (c :: f') (',' :: r) hnc (Or.inr ⟨r, rfl⟩)
      simp only [List.cons_append] at ht
      rw [show escField (c :: f') ++ ',' :: r = (c :: f') ++ ',' :: r by
        simp [escField, hq]]
      simp [parseRowAux, hcd, ht]

theorem intercalate_comma_cons (a : List Char) (b : List (List Char)) (hb : b ≠ []) :
    List.intercalate [','] (a :: b) = a ++ ',' :: List.intercalate [','] b := by
  cases b with
  | nil => exact absurd rfl hb
  | cons x t => simp [List.intercalate, List.intersperse]

theorem parseRowAux_intercalate (fs : List (List Char)) :
    ∀ fuel, fs.length ≤ fuel → fs ≠ [] →
      parseRowAux fuel (List.intercalate [','] (fs.map escField)) = fs := by
  induction fs with
  | nil => exact fun fuel _ h => absurd rfl h
  | cons f fs' ih =>
    intro fuel hfuel _
    cases fs' with
    | nil =>
      cases fuel with
      | zero => simp at hfuel
      | succ n =>
        have h1 : List.intercalate [','] [escField f] = escField f := by
          simp [List.intercalate]
        rw [List.map_cons, List.map_nil, h1]
        exact parseRowAux_esc_last f n
    | cons g gs =>
      cases fuel with
      | zero => simp at hfuel
      | succ n =>
        rw [List.map_cons, intercalate_comma_cons _ _ (by simp), parseRowAux_esc_cons]
        rw [ih n (by simpa using hfuel) (by simp)]

theorem intercalate_length_bound (fs : List (List Char)) :
    fs.length ≤ (List.intercalate [','] (fs.map escField)).length + 1 := by
  induction fs with
  | nil => simp
  | cons f fs' ih =>
    cases fs' with
    | nil => simp
    | cons g gs =>
      rw [List.map_cons, intercalate_comma_cons _ _ (by simp)]
      simp only [List.length_append, List.length_cons] at *
      omega

theorem parseRow_csvRow (fields : List (List Char)) (hne : fields ≠ []) :
    parseRow (csvRow fields) = fields := by
  unfold parseRow csvRow
  exact parseRowAux_intercalate fields _ (by simpa using intercalate_length_bound fields) hne

/-- C7: the CSV output is the project-label line, then a header row of
exactly the eight named columns in order, then one row per record; every
written row re-parses (standard CSV quoting) to field values equal
string-for-string to the record's fields. -/
theorem csv_roundtrip (results : List MatchRecord) (name : List Char) (r : MatchRecord) :
    export_csv results name
      = ("Project: ").data ++ name ++ ("\n").data
        ++ (csvRow csvHeader ++ crlf)
        ++ results.flatMap (fun x => csvRow (csvFields x) ++ crlf) ∧
    parseRow (csvRow csvHeader) = csvHeader ∧
    parseRow (csvRow (csvFields r)) = csvFields r := by
  refine ⟨?_, parseRow_csvRow _ (by simp [csvHeader]), parseRow_csvRow _ (by simp [csvFields])⟩
  simp [export_csv, csvBody, List.append_assoc]

theorem mem_keyedEnum_head {α : Type} (g : Nat → α → List (List Nat × MatchRecord)) :
    ∀ (l : List α) (k : Nat) (x : List Nat × MatchRecord), x ∈ keyedEnum g k l →
      ∃ i t, x = (i :: t, x.2) ∧ k ≤ i := by
  intro l
  induction l with
  | nil =>
    intro k x hx
    simp [keyedEnum] at hx
  | cons a l ih =>
    intro k x hx
    rw [keyedEnum, List.enumFrom_cons, List.flatMap_cons] at hx
    rcases List.mem_append.1 hx with h1 | h2
    · obtain ⟨t, _, rfl⟩ := List.mem_map.1 h1
      exact ⟨k, t.1, rfl, Nat.le_refl _⟩
    · obtain ⟨i, t, hx2, hk⟩ := ih (k + 1) x h2
      exact ⟨i, t, hx2, by omega⟩

theorem pairwise_keyedEnum {α : Type} (g : Nat → α → List (List Nat × MatchRecord))
    (hg : ∀ i a, List.Pairwise keyLt (g i a)) :
    ∀ (l : List α) (k : Nat), List.Pairwise keyLt (keyedEnum g k l) := by
  intro l
  induction l with
  | nil =>
    intro k
    simp [keyedEnum]
  | cons a l ih =>
    intro k
    rw [keyedEnum, List.enumFrom_cons, List.flatMap_cons]
    apply List.pairwise_append.2
    refine ⟨?_, ih (k + 1), ?_⟩
    · refine List.Pairwise.map _ ?_ (hg k a)
      intro x y hxy
      exact List.Lex.cons hxy
    · intro x hx y hy
      obtain ⟨t, _, rfl⟩ := List.mem_map.1 hx
      obtain ⟨i, s, hy2, hk⟩ := mem_keyedEnum_head g l (k + 1) y hy
      rw [hy2]
      exact List.Lex.rel (by omega)

theorem finditer_pos_strict (p : Pattern) (l : List Char) :
    (finditer p l).Pairwise (fun a b => a.1 < b.1) := by
  refine (finditer_chain p l).imp_of_mem ?_
  intro a b ha _ hab
  have hpos := matchHere_pos p _ _ (finditer_sound p l a ha)
  omega

theorem keyedLine_pairwise (path : List Char) (n : Nat) (line : List Char) :
    (keyedLine path n line).Pairwise keyLt := by
  unfold keyedLine
  apply pairwise_keyedEnum
  intro _ cp
  apply pairwise_keyedEnum
  intro _ p
  refine List.Pairwise.map _ ?_ (finditer_pos_strict p line)
  intro a b hab
  exact List.Lex.rel hab

theorem keyedFile_pairwise (f : SrcFile) : (keyedFile f).Pairwise keyLt := by
  unfold keyedFile
  cases f.content with
  | error e => exact List.Pairwise.nil
  | ok lines =>
    apply pairwise_keyedEnum
    intro idx raw
    exact keyedLine_pairwise f.path (idx + 1) (pyStrip raw)

theorem keyedScan_pairwise (files : List SrcFile) : (keyedScan files).Pairwise keyLt := by
  unfold keyedScan
  apply pairwise_keyedEnum
  intro _ f
  exact keyedFile_pairwise f

theorem map_snd_consKey (i : Nat) (xs : List (List Nat × MatchRecord)) :
    (xs.map (consKey i)).map Prod.snd = xs.map Prod.snd := by
  induction xs with
  | nil => rfl
  | cons x t ih => simp [consKey, ih]

theorem keyedEnum_map_snd {α : Type} (g : Nat → α → List (List Nat × MatchRecord))
    (F : Nat → α → List MatchRecord) (hF : ∀ i a, (g i a).map Prod.snd = F i a) :
    ∀ (l : List α) (k : Nat), (keyedEnum g k l).map Prod.snd
      = (List.enumFrom k l).flatMap fun ia => F ia.1 ia.2 := by
  intro l
  induction l with
  | nil => intro k; rfl
  | cons a l ih =>
    intro k
    rw [keyedEnum, List.enumFrom_cons, List.flatMap_cons, List.map_append, map_snd_consKey,
      hF k a, List.flatMap_cons]
    congr 1
    exact ih (k + 1)

theorem enumFrom_flatMap_erase {α β : Type} (F : α → List β) :
    ∀ (l : List α) (k : Nat), ((List.enumFrom k l).flatMap fun ia => F ia.2) = l.flatMap F := by
  intro l
  induction l with
  | nil => intro k; rfl
  | cons a l ih =>
    intro k
    rw [List.enumFrom_cons, List.flatMap_cons, List.flatMap_cons, ih (k + 1)]

theorem map_snd_matchPairs (path : List Char) (n : Nat) (line cat : List Char)
    (ms : List (Nat × Nat)) :
    ((ms.map fun m => (([m.1] : List Nat), mkRecordFor path n line cat m)).map Prod.snd)
      = ms.map (mkRecordFor path n line cat) := by
  induction ms with
  | nil => rfl
  | cons m t ih => simp [ih]

theorem keyedLine_map_snd (path : List Char) (n : Nat) (line : List Char) :
    (keyedLine path n line).map Prod.snd = lineMatches path n line := by
  unfold keyedLine lineMatches
  refine Eq.trans (keyedEnum_map_snd _
    (fun _ cp => cp.2.flatMap fun p => (finditer p line).map (mkRecordFor path n line cp.1))
    ?_ patterns 0) ?_
  · intro _ cp
    refine Eq.trans (keyedEnum_map_snd _
      (fun _ p => (finditer p line).map (mkRecordFor path n line cp.1)) ?_ cp.2 0) ?_
    · intro _ p
      exact map_snd_matchPairs path n line cp.1 (finditer p line)
    · exact enumFrom_flatMap_erase
        (fun p => (finditer p line).map (mkRecordFor path n line cp.1)) cp.2 0
  · exact enumFrom_flatMap_erase
      (fun cp => cp.2.flatMap fun p => (finditer p line).map (mkRecordFor path n line cp.1))
      patterns 0

theorem keyedFile_map_snd (f : SrcFile) :
    (keyedFile f).map Prod.snd = (find_matches f).1 := by
  unfold keyedFile find_matches
  cases f.content with
  | error e => rfl
  | ok lines =>
    exact keyedEnum_map_snd _ (fun idx raw => lineMatches f.path (idx + 1) (pyStrip raw))
      (fun idx raw => keyedLine_map_snd f.path (idx + 1) (pyStrip raw)) lines 0

theorem keyedScan_map_snd (files : List SrcFile) :
    (keyedScan files).map Prod.snd = files.flatMap fun f => (find_matches f).1 := by
  unfold keyedScan
  refine Eq.trans (keyedEnum_map_snd _ (fun _ f => (find_matches f).1)
    (fun _ f => keyedFile_map_snd f) files 0) ?_
  exact enumFrom_flatMap_erase (fun f => (find_matches f).1) files 0

/-- C5: the scan's record list is the second projection of the keyed scan,
whose keys `[file index, line index, category index, rule index, match
position]` are strictly increasing in lexicographic order: records are
ordered file-by-file (traversal order), then by line, then by category
declaration order, then by rule declaration order within a category, then
left-to-right by match position within the line. -/
theorem scan_order (fs : FileSystem) (h : fs.rootExists = true) :
    (scan_directory fs).1 = (keyedScan fs.phpFiles).map Prod.snd ∧
    (keyedScan fs.phpFiles).Pairwise keyLt := by
  constructor
  · rw [keyedScan_map_snd]
    unfold scan_directory
    rw [h]
    simp
  · exact keyedScan_pairwise fs.phpFiles

/-- Witness for C5 at a concrete two-file filesystem. -/
theorem scan_order_witness :
    (scan_directory ⟨true, [⟨("a.php").data, .ok [("do_action(\"x\"); add_action(\"y\");").data]⟩,
        ⟨("b.php").data, .ok [("add_filter(\"z\");").data]⟩]⟩).1
      = (keyedScan [⟨("a.php").data, .ok [("do_action(\"x\"); add_action(\"y\");").data]⟩,
          ⟨("b.php").data, .ok [("add_filter(\"z\");").data]⟩]).map Prod.snd ∧
    (keyedScan [⟨("a.php").data, .ok [("do_action(\"x\"); add_action(\"y\");").data]⟩,
        ⟨("b.php").data, .ok [("add_filter(\"z\");").data]⟩]).Pairwise keyLt :=
  scan_order ⟨true, [⟨("a.php").data, .ok [("do_action(\"x\"); add_action(\"y\");").data]⟩,
    ⟨("b.php").data, .ok [("add_filter(\"z\");").data]⟩]⟩ rfl

theorem lexLt_asymm : ∀ (a b : List Char), lexLt a b = true → lexLt b a = true → False := by
  intro a
  induction a with
  | nil =>
    intro b h1 h2
    cases b with
    | nil => simp [lexLt] at h1
    | cons c cs => simp [lexLt] at h2
  | cons x xs ih =>
    intro b h1 h2
    cases b with
    | nil => simp [lexLt] at h1
    | cons y ys =>
      simp only [lexLt, Bool.or_eq_true, Bool.and_eq_true, decide_eq_true_eq] at h1 h2
      rcases h1 with h1 | ⟨rfl, h1⟩
      · rcases h2 with h2 | ⟨rfl, h2⟩
        · exact absurd h2 (lt_asymm h1)
        · exact lt_irrefl _ h1
      · rcases h2 with h2 | ⟨_, h2⟩
        · exact lt_irrefl _ h2
        · exact ih ys h1 h2

theorem lexLt_trans : ∀ (a b c : List Char),
    lexLt a b = true → lexLt b c = true → lexLt a c = true := by
  intro a
  induction a with
  | nil =>
    intro b c h1 h2
    cases b with
    | nil => simp [lexLt] at h1
    | cons y ys =>
      cases c with
      | nil => simp [lexLt] at h2
      | cons z zs => simp [lexLt]
  | cons x xs ih =>
    intro b c h1 h2
    cases b with
    | nil => simp [lexLt] at h1
    | cons y ys =>
      cases c with
      | nil => simp [lexLt] at h2
      | cons z zs =>
        simp only [lexLt, Bool.or_eq_true, Bool.and_eq_true, decide_eq_true_eq] at h1 h2 ⊢
        rcases h1 with h1 | ⟨rfl, h1⟩
        · rcases h2 with h2 | ⟨rfl, h2⟩
          · exact Or.inl (lt_trans h1 h2)
          · exact Or.inl h1
        · rcases h2 with h2 | ⟨rfl, h2⟩
          · exact Or.inl h2
          · exact Or.inr ⟨rfl, ih ys zs h1 h2⟩

theorem lexLt_total_ne : ∀ (a b : List Char), a ≠ b →
    lexLt a b = true ∨ lexLt b a = true := by
  intro a
  induction a with
  | nil =>
    intro b hb
    cases b with
    | nil => exact absurd rfl hb
    | cons c cs =>
      left
      simp [lexLt]
  | cons x xs ih =>
    intro b hb
    cases b with
    | nil =>
      right
      simp [lexLt]
    | cons y ys =>
      by_cases hxy : x = y
      · subst hxy
        have hne : xs ≠ ys := fun h => hb (by rw [h])
        rcases ih ys hne with h | h
        · left
          simp [lexLt, h]
        · right
          simp [lexLt, h]
      · rcases lt_trichotomy x y with h | h | h
        · left
          simp [lexLt, h]
        · exact absurd h hxy
        · right
          simp [lexLt, h]

theorem keyLe_trans (a b c : List Char × List MatchRecord)
    (h1 : keyLe a b = true) (h2 : keyLe b c = true) : keyLe a c = true := by
  unfold keyLe at *
  simp only [Bool.not_eq_true'] at h1 h2 ⊢
  by_contra hcon
  have hlt : lexLt c.1 a.1 = true := by
    cases hx : lexLt c.1 a.1 with
    | true => rfl
    | false => exact absurd hx hcon
  by_cases hab : a.1 = b.1
  · rw [← hab] at h2
    rw [h2] at hlt
    cases hlt
  · rcases lexLt_total_ne a.1 b.1 hab with h | h
    · have hcb := lexLt_trans c.1 a.1 b.1 hlt h
      rw [hcb] at h2
      cases h2
    · rw [h] at h1
      cases h1

theorem keyLe_total (a b : List Char × List MatchRecord) :
    (keyLe a b || keyLe b a) = true := by
  unfold keyLe
  cases h : lexLt b.1 a.1 with
  | false => simp [h]
  | true =>
    have h2 : lexLt a.1 b.1 = false := by
      cases hx : lexLt a.1 b.1 with
      | false => rfl
      | true => exact absurd (lexLt_asymm _ _ hx h) (fun f => f)
    simp [h, h2]

theorem mem_firstKeysAux : ∀ (ks : List (List Char)) (seen x),
    x ∈ firstKeysAux seen ks ↔ x ∈ ks ∧ x ∉ seen := by
  intro ks
  induction ks with
  | nil => simp [firstKeysAux]
  | cons k ks' ih =>
    intro seen x
    by_cases hk : k ∈ seen
    · rw [firstKeysAux, if_pos hk, ih]
      simp only [List.mem_cons]
      constructor
      · rintro ⟨h1, h2⟩
        exact ⟨Or.inr h1, h2⟩
      · rintro ⟨h1 | h1, h2⟩
        · subst h1
          exact absurd hk h2
        · exact ⟨h1, h2⟩
    · rw [firstKeysAux, if_neg hk]
      simp only [List.mem_cons, ih, List.mem_cons]
      constructor
      · rintro (rfl | ⟨h1, h2⟩)
        · exact ⟨Or.inl rfl, hk⟩
        · refine ⟨Or.inr h1, fun hc => h2 (Or.inr hc)⟩
      · rintro ⟨rfl | h1, h2⟩
        · exact Or.inl rfl
        · by_cases hxk : x = k
          · exact Or.inl hxk
          · exact Or.inr ⟨h1, fun hc => by
              rcases hc with hc | hc
              · exact hxk hc
              · exact h2 hc⟩

theorem nodup_firstKeysAux : ∀ (ks : List (List Char)) (seen : List (List Char)),
    (firstKeysAux seen ks).Nodup := by
  intro ks
  induction ks with
  | nil =>
    intro seen
    simp [firstKeysAux]
  | cons k ks' ih =>
    intro seen
    by_cases hk : k ∈ seen
    · rw [firstKeysAux, if_pos hk]
      exact ih seen
    · rw [firstKeysAux, if_neg hk]
      rw [List.nodup_cons]
      refine ⟨fun hc => ?_, ih (k :: seen)⟩
      exact ((mem_firstKeysAux ks' (k :: seen) k).1 hc).2 (List.mem_cons_self _ _)

theorem nodup_kindsOf (crs : List MatchRecord) : (kindsOf crs).Nodup :=
  nodup_firstKeysAux _ []

theorem mem_kindsOf_iff (crs : List MatchRecord) (x : List Char) :
    x ∈ kindsOf crs ↔ x ∈ crs.map (fun r => r.function) := by
  unfold kindsOf firstKeys
  rw [mem_firstKeysAux]
  simp

theorem firstKeysAux_append_one (k : List Char) : ∀ (ks seen : List (List Char)),
    firstKeysAux seen (ks ++ [k])
      = firstKeysAux seen ks ++ (if k ∈ seen ∨ k ∈ ks then [] else [k]) := by
  intro ks
  induction ks with
  | nil =>
    intro seen
    by_cases hk : k ∈ seen
    · simp [firstKeysAux, hk]
    · simp [firstKeysAux, hk]
  | cons k0 ks' ih =>
    intro seen
    by_cases h0 : k0 ∈ seen
    · rw [List.cons_append, firstKeysAux, if_pos h0, firstKeysAux, if_pos h0, ih seen]
      congr 1
      refine if_congr ?_ rfl rfl
      simp only [List.mem_cons]
      constructor
      · rintro (h | h)
        · exact Or.inl h
        · exact Or.inr (Or.inr h)
      · rintro (h | h | h)
        · exact Or.inl h
        · subst h
          exact Or.inl h0
        · exact Or.inr h
    · rw [List.cons_append, firstKeysAux, if_neg h0, firstKeysAux, if_neg h0, ih (k0 :: seen),
        List.cons_append]
      congr 2
      refine if_congr ?_ rfl rfl
      simp only [List.mem_cons]
      constructor
      · rintro ((h | h) | h)
        · subst h
          exact Or.inr (Or.inl rfl)
        · exact Or.inl h
        · exact Or.inr (Or.inr h)
      · rintro (h | h | h)
        · exact Or.inl (Or.inr h)
        · exact Or.inl (Or.inl h)
        · exact Or.inr h

theorem kindsOf_append_one (crs : List MatchRecord) (r : MatchRecord) :
    kindsOf (crs ++ [r])
      = kindsOf crs
        ++ (if r.function ∈ crs.map (fun x => x.function) then [] else [r.function]) := by
  unfold kindsOf firstKeys
  rw [List.map_append, List.map_singleton, firstKeysAux_append_one]
  simp

theorem addToGroup_map (K : List (List Char)) (F : List Char → List MatchRecord)
    (r : MatchRecord) (hnd : K.Nodup) :
    addToGroup (K.map fun k => (k, F k)) r
      = if r.function ∈ K
        then K.map fun k => (k, F k ++ if k = r.function then [r] else [])
        else (K.map fun k => (k, F k)) ++ [(r.function, [r])] := by
  induction K with
  | nil => simp [addToGroup]
  | cons k K' ih =>
    obtain ⟨hk, hnd'⟩ := List.nodup_cons.1 hnd
    rw [List.map_cons, addToGroup]
    by_cases hkr : k = r.function
    · subst hkr
      rw [if_pos rfl, if_pos (List.mem_cons_self _ _), List.map_cons]
      congr 1
      · simp
      · refine (List.map_congr_left ?_).symm
        intro k' hk'
        have hne : k' ≠ r.function := fun hc => hk (hc ▸ hk')
        simp [hne]
    · rw [if_neg (by simpa using hkr), ih hnd']
      by_cases hmem : r.function ∈ K'
      · rw [if_pos hmem, if_pos (List.mem_cons_of_mem _ hmem), List.map_cons]
        congr 1
        simp [hkr]
      · rw [if_neg hmem, if_neg (by
          simp only [List.mem_cons]
          rintro (hc | hc)
          · exact hkr hc.symm
          · exact hmem hc)]
        rw [List.cons_append]

theorem addToGroup_spec_step (l : List MatchRecord) (r : MatchRecord) :
    addToGroup ((kindsOf l).map fun k => (k, l.filter fun x => x.function == k)) r
      = (kindsOf (l ++ [r])).map fun k => (k, (l ++ [r]).filter fun x => x.function == k) := by
  rw [addToGroup_map _ _ _ (nodup_kindsOf l)]
  by_cases hmem : r.function ∈ kindsOf l
  · rw [if_pos hmem]
    have hmem' : r.function ∈ l.map (fun x => x.function) := (mem_kindsOf_iff l _).1 hmem
    rw [kindsOf_append_one, if_pos hmem', List.append_nil]
    apply List.map_congr_left
    intro k _
    rw [List.filter_append]
    have hfr : List.filter (fun x => x.function == k) [r]
        = if k = r.function then [r] else [] := by
      simp only [List.filter_cons, List.filter_nil]
      refine if_congr ?_ rfl rfl
      rw [beq_iff_eq, eq_comm]
    rw [hfr]
  · rw [if_neg hmem]
    have hmem' : r.function ∉ l.map (fun x => x.function) :=
      fun hc => hmem ((mem_kindsOf_iff l _).2 hc)
    rw [kindsOf_append_one, if_neg hmem', List.map_append]
    congr 1
    · apply List.map_congr_left
      intro k hk
      have hk' : r.function ≠ k := by
        intro hc
        exact hmem (hc ▸ hk)
      rw [List.filter_append]
      simp [List.filter_cons, hk']
    · rw [List.map_singleton]
      have h1 : List.filter (fun x => x.function == r.function) l = [] := by
        rw [List.filter_eq_nil_iff]
        intro x hx
        simp only [beq_iff_eq]
        intro hc
        exact hmem' (hc ▸ List.mem_map_of_mem (fun y => y.function) hx)
      rw [List.filter_append, h1]
      simp

theorem groupByFunction_eq (crs : List MatchRecord) :
    groupByFunction crs = (kindsOf crs).map fun k => (k, crs.filter fun x => x.function == k) := by
  induction crs using List.reverseRecOn with
  | nil => rfl
  | append_singleton l r ih =>
    rw [groupByFunction, List.foldl_concat]
    rw [show List.foldl addToGroup [] l = groupByFunction l from rfl, ih]
    exact addToGroup_spec_step l r

instance keyLtB_antisymm :
    IsAntisymm (List Char × List MatchRecord) (fun a b => lexLt a.1 b.1 = true) :=
  ⟨fun _ _ h1 h2 => (lexLt_asymm _ _ h1 h2).elim⟩

theorem lexLe_trans (a b c : List Char) (h1 : (!(lexLt b a)) = true)
    (h2 : (!(lexLt c b)) = true) : (!(lexLt c a)) = true := by
  simp only [Bool.not_eq_true'] at h1 h2 ⊢
  by_contra hcon
  have hlt : lexLt c a = true := by
    cases hx : lexLt c a with
    | true => rfl
    | false => exact absurd hx hcon
  by_cases hab : a = b
  · rw [← hab] at h2
    rw [h2] at hlt
    cases hlt
  · rcases lexLt_total_ne a b hab with h | h
    · have hcb := lexLt_trans c a b hlt h
      rw [hcb] at h2
      cases h2
    · rw [h] at h1
      cases h1

theorem lexLe_total (a b : List Char) : ((!(lexLt b a)) || (!(lexLt a b))) = true := by
  cases h : lexLt b a with
  | false => simp [h]
  | true =>
    have h2 : lexLt a b = false := by
      cases hx : lexLt a b with
      | false => rfl
      | true => exact absurd (lexLt_asymm _ _ hx h) (fun f => f)
    simp [h2]

theorem pairwise_strict_of_le_nodup (L : List (List Char × List MatchRecord))
    (h1 : L.Pairwise (fun a b => keyLe a b = true))
    (h2 : (L.map Prod.fst).Nodup) :
    L.Pairwise (fun a b => lexLt a.1 b.1 = true) := by
  rw [List.Nodup, List.pairwise_map] at h2
  refine (h1.and h2).imp ?_
  rintro a b ⟨hle, hne⟩
  have hf : lexLt b.1 a.1 = false := by
    unfold keyLe at hle
    simpa using hle
  rcases lexLt_total_ne a.1 b.1 hne with h | h
  · exact h
  · rw [h] at hf
    cases hf

theorem pairwise_lexLt_of_le_nodup (L : List (List Char))
    (h1 : L.Pairwise (fun a b => (!(lexLt b a)) = true)) (h2 : L.Nodup) :
    L.Pairwise (fun a b => lexLt a b = true) := by
  rw [List.Nodup] at h2
  refine (h1.and h2).imp ?_
  rintro a b ⟨hle, hne⟩
  have hf : lexLt b a = false := by simpa using hle
  rcases lexLt_total_ne a b hne with h | h
  · exact h
  · rw [h] at hf
    cases hf

theorem map_fst_pairs (K : List (List Char)) (F : List Char → List MatchRecord) :
    ((K.map fun k => (k, F k)).map Prod.fst) = K := by
  rw [List.map_map]
  have h : ∀ a ∈ K, (Prod.fst ∘ fun k => (k, F k)) a = id a := fun a _ => rfl
  rw [List.map_congr_left h, List.map_id]

theorem mem_insertLe {α : Type} (le : α → α → Bool) (x : α) :
    ∀ (l : List α) (z : α), z ∈ insertLe le x l ↔ z = x ∨ z ∈ l := by
  intro l
  induction l with
  | nil => simp [insertLe]
  | cons y ys ih =>
    intro z
    by_cases h : le x y = true
    · rw [insertLe, if_pos h]
      simp [List.mem_cons]
    · rw [insertLe, if_neg h]
      simp only [List.mem_cons, ih]
      constructor
      · rintro (h1 | h1 | h1)
        · exact Or.inr (Or.inl h1)
        · exact Or.inl h1
        · exact Or.inr (Or.inr h1)
      · rintro (h1 | h1 | h1)
        · exact Or.inr (Or.inl h1)
        · exact Or.inl h1
        · exact Or.inr (Or.inr h1)

theorem perm_insertLe {α : Type} (le : α → α → Bool) (x : α) :
    ∀ (l : List α), (insertLe le x l).Perm (x :: l) := by
  intro l
  induction l with
  | nil => exact List.Perm.refl _
  | cons y ys ih =>
    by_cases h : le x y = true
    · rw [insertLe, if_pos h]
    · rw [insertLe, if_neg h]
      exact (ih.cons y).trans (List.Perm.swap x y ys)

theorem perm_sortLe {α : Type} (le : α → α → Bool) :
    ∀ (l : List α), (sortLe le l).Perm l := by
  intro l
  induction l with
  | nil => exact List.Perm.refl _
  | cons x xs ih => exact (perm_insertLe le x (sortLe le xs)).trans (ih.cons x)

theorem pairwise_insertLe {α : Type} (le : α → α → Bool)
    (htrans : ∀ a b c, le a b = true → le b c = true → le a c = true)
    (htotal : ∀ a b, (le a b || le b a) = true) (x : α) :
    ∀ (l : List α), l.Pairwise (fun a b => le a b = true) →
      (insertLe le x l).Pairwise (fun a b => le a b = true) := by
  intro l
  induction l with
  | nil =>
    intro _
    simp [insertLe]
  | cons y ys ih =>
    intro h
    rcases List.pairwise_cons.1 h with ⟨hy, hys⟩
    by_cases hxy : le x y = true
    · rw [insertLe, if_pos hxy]
      refine List.Pairwise.cons ?_ h
      intro z hz
      rcases List.mem_cons.1 hz with rfl | hz2
      · exact hxy
      · exact htrans x y z hxy (hy z hz2)
    · rw [insertLe, if_neg hxy]
      have hyx : le y x = true := by
        have ht := htotal x y
        rw [Bool.or_eq_true] at ht
        rcases ht with h1 | h1
        · exact absurd h1 hxy
        · exact h1
      refine List.Pairwise.cons ?_ (ih hys)
      intro z hz
      rcases (mem_insertLe le x (ys) z).1 hz with rfl | hz2
      · exact hyx
      · exact hy z hz2

theorem pairwise_sortLe {α : Type} (le : α → α → Bool)
    (htrans : ∀ a b c, le a b = true → le b c = true → le a c = true)
    (htotal : ∀ a b, (le a b || le b a) = true) :
    ∀ (l : List α), (sortLe le l).Pairwise (fun a b => le a b = true) := by
  intro l
  induction l with
  | nil => exact List.Pairwise.nil
  | cons x xs ih => exact pairwise_insertLe le htrans htotal x (sortLe le xs) ih

theorem sortGroups_eq (crs : List MatchRecord) :
    sortGroups (groupByFunction crs)
      = (sortLe (fun a b => !(lexLt b a)) (kindsOf crs)).map
          fun k => (k, crs.filter fun x => x.function == k) := by
  have hperm1 : (sortGroups (groupByFunction crs)).Perm
      ((kindsOf crs).map fun k => (k, crs.filter fun x => x.function == k)) := by
    unfold sortGroups
    rw [groupByFunction_eq]
    exact perm_sortLe keyLe _
  have hperm2 : ((sortLe (fun a b => !(lexLt b a)) (kindsOf crs)).map
      fun k => (k, crs.filter fun x => x.function == k)).Perm
      ((kindsOf crs).map fun k => (k, crs.filter fun x => x.function == k)) :=
    (perm_sortLe _ (kindsOf crs)).map _
  have hs1 : (sortGroups (groupByFunction crs)).Pairwise (fun a b => keyLe a b = true) := by
    unfold sortGroups
    exact pairwise_sortLe keyLe keyLe_trans keyLe_total _
  have hnd1 : ((sortGroups (groupByFunction crs)).map Prod.fst).Nodup := by
    have hp : ((sortGroups (groupByFunction crs)).map Prod.fst).Perm (kindsOf crs) := by
      have := hperm1.map Prod.fst
      rwa [map_fst_pairs] at this
    exact hp.symm.nodup (nodup_kindsOf crs)
  have hstrict1 := pairwise_strict_of_le_nodup _ hs1 hnd1
  have hs2 : (sortLe (fun a b => !(lexLt b a)) (kindsOf crs)).Pairwise
      (fun a b => (!(lexLt b a)) = true) :=
    pairwise_sortLe _ lexLe_trans lexLe_total _
  have hnd2 : (sortLe (fun a b => !(lexLt b a)) (kindsOf crs)).Nodup :=
    (perm_sortLe _ (kindsOf crs)).symm.nodup (nodup_kindsOf crs)
  have hstrictKeys := pairwise_lexLt_of_le_nodup _ hs2 hnd2
  have hstrict2 : ((sortLe (fun a b => !(lexLt b a)) (kindsOf crs)).map
      fun k => (k, crs.filter fun x => x.function == k)).Pairwise
      (fun a b => lexLt a.1 b.1 = true) := by
    rw [List.pairwise_map]
    exact hstrictKeys
  exact List.eq_of_perm_of_sorted (hperm1.trans hperm2.symm) hstrict1 hstrict2

theorem flatMap_congr_mem {α β : Type} (l : List α) (f g : α → List β)
    (h : ∀ a ∈ l, f a = g a) : l.flatMap f = l.flatMap g := by
  induction l with
  | nil => rfl
  | cons a t ih =>
    rw [List.flatMap_cons, List.flatMap_cons, h a (List.mem_cons_self _ _),
      ih (fun x hx => h x (List.mem_cons_of_mem _ hx))]

/-- A one-record result list, category `action`, used as a concrete input. -/
def soloResults : List MatchRecord :=
  lineMatches (("a.php").data) 1 (("do_action(\"init\");").data)

/-- C8 fails as stated: the markdown rendering emits a section only for a
category that has records.  With a single action record, the output contains
an Actions section but no Filters (or Shortcodes, or Hooks) section, though
the claim promises one section per category. -/
theorem md_sections_only_nonempty :
    soloResults.length = 1 ∧
    (∀ r ∈ soloResults, r.category = ("action").data) ∧
    isSubstring (("### Actions").data) (export_markdown soloResults (("proj").data)) = true ∧
    isSubstring (("### Filters").data) (export_markdown soloResults (("proj").data)) = false ∧
    isSubstring (("### Shortcodes").data) (export_markdown soloResults (("proj").data)) = false ∧
    isSubstring (("### Hooks").data) (export_markdown soloResults (("proj").data)) = false := by
  decide

/-- C8 amended: the markdown rendering is a title line with the project
label, the analysis header, then one section per category that has at least
one record, in the fixed category declaration order, each section holding
one subsection per distinct function-kind present in that category in
alphabetical order of the function name, each subsection listing that
kind's records (file path and line number, the extracted identifier omitted
exactly when it is the `N/A` sentinel, and the highlighted line). -/
theorem export_markdown_eq_mdSpec (results : List MatchRecord) (project : List Char) :
    export_markdown results project = mdSpec results project := by
  unfold export_markdown mdSpec mdBody
  congr 1
  apply flatMap_congr_mem
  intro cat _
  by_cases hempty : (results.filter (fun r => r.category == cat)).isEmpty = true
  · rw [if_pos hempty, if_pos hempty]
  · rw [if_neg hempty, if_neg hempty]
    congr 1
    rw [sortGroups_eq, List.flatMap_map]

end Spotlight
